import Mathlib

set_option maxHeartbeats 1000000

/-!
Verification of the Gomoku rules engine (`src/engine/game.js`) and the AI
opponent (`ai-player.js`) against their natural-language specification.

The JavaScript source is shallowly embedded: boards are lists of lists of
cells, mutation becomes explicit state passing (functions that mutate the
board return the resulting board alongside their result), numbers are `Int`
(with an extended type for the `±Infinity` sentinels used by the search),
and thrown errors become `Option`/`Except` results that also carry the
object state at the point of the throw.
-/

namespace Gomoku

/-- Cell state of one board square (config.js: `EMPTY = 0`, `BLACK = 1`,
    `WHITE = 2`). -/
inductive Cell where
  | empty
  | black
  | white
deriving DecidableEq, Repr

/-- A board is a row-major list of rows of cells (the JS nested arrays). -/
abbrev Board := List (List Cell)

/-- `BOARD_SIZE` from config.js. -/
def BOARD_SIZE : Nat := 15

/-- A board position `{row, col}`. -/
structure Pos where
  row : Int
  col : Int
deriving DecidableEq, Repr

/-- A recorded move `{row, col, player}`. -/
structure Move where
  row : Int
  col : Int
  player : Cell
deriving DecidableEq, Repr

/-- Read `board[row][col]`.  An out-of-range read yields `empty`; in the
    source every read is guarded by a bounds check, so the default is never
    observed by the embedded code. -/
def getCell (b : Board) (r c : Int) : Cell :=
  if 0 ≤ r ∧ 0 ≤ c then (b.getD r.toNat []).getD c.toNat Cell.empty else Cell.empty

/-- Write `board[row][col] = v`.  A write outside the grid leaves it
    unchanged; the source only ever writes in-bounds cells. -/
def setCell (b : Board) (r c : Int) (v : Cell) : Board :=
  if 0 ≤ r ∧ 0 ≤ c then b.set r.toNat ((b.getD r.toNat []).set c.toNat v) else b

/-- `isInside(boardSize, row, col)` from engine/game.js. -/
def isInside (boardSize : Nat) (r c : Int) : Bool :=
  decide (0 ≤ r) && decide (r < (boardSize : Int)) &&
  decide (0 ≤ c) && decide (c < (boardSize : Int))

/-- The body of `collectLine`'s while loop with explicit fuel: from `(row,
    col)` step to `(row+dx, col+dy)` and keep walking while the cell is
    in-bounds and holds `player`.  Within the engine the walk advances by
    `±1` in at least one coordinate each step and stays inside the grid, so
    `b.length` steps of fuel are never exhausted. -/
def collectLineFuel (b : Board) (player : Cell) (dx dy : Int) :
    Nat → Int → Int → List Pos
  | 0, _, _ => []
  | fuel + 1, row, col =>
    let x := row + dx
    let y := col + dy
    if isInside b.length x y && decide (getCell b x y = player) then
      ⟨x, y⟩ :: collectLineFuel b player dx dy fuel x y
    else
      []

/-- `collectLine(board, row, col, dx, dy, player)` from engine/game.js. -/
def collectLine (b : Board) (row col dx dy : Int) (player : Cell) : List Pos :=
  collectLineFuel b player dx dy b.length row col

/-- Winning-line search result `{sequence, direction}`. -/
structure WinData where
  sequence : List Pos
  direction : Int × Int
deriving DecidableEq, Repr

/-- The four axes checked by `determineWinningSequence`, in source order. -/
def winDirections : List (Int × Int) := [(1, 0), (0, 1), (1, 1), (1, -1)]

/-- The candidate line through `(row, col)` along one axis: the origin, then
    the forward run, then the backward run (the source's concatenation
    order `[{row, col}, ...forward, ...backward]`). -/
def lineThrough (b : Board) (row col : Int) (d : Int × Int) (player : Cell) : List Pos :=
  ⟨row, col⟩ :: (collectLine b row col d.1 d.2 player ++
    collectLine b row col (-d.1) (-d.2) player)

/-- `determineWinningSequence(board, row, col)`: `none` when the origin is
    empty, otherwise the first axis whose line has length at least 5. -/
def determineWinningSequence (b : Board) (row col : Int) : Option WinData :=
  let player := getCell b row col
  if player = Cell.empty then none
  else
    (winDirections.find? fun d =>
      decide (5 ≤ (lineThrough b row col d player).length)).map
      fun d => ⟨lineThrough b row col d player, d⟩

/-- `checkWin(board, row, col)`. -/
def checkWin (b : Board) (row col : Int) : Bool :=
  (determineWinningSequence b row col).isSome

/-- `checkDraw(board)`: true iff no cell is empty. -/
def checkDraw (b : Board) : Bool :=
  b.all fun rowCells => rowCells.all fun cell => decide (cell ≠ Cell.empty)

/-- `findWinningSequence(board)`: scan cells row-major, skip empty cells,
    and return the first winning sequence found. -/
def findWinningSequence (b : Board) : Option WinData :=
  (List.range b.length).findSome? fun (r : Nat) =>
    (List.range ((b.getD r []).length)).findSome? fun (c : Nat) =>
      if getCell b (r : Int) (c : Int) = Cell.empty then none
      else determineWinningSequence b (r : Int) (c : Int)

/-- `getOpponent(player)` from the engine (also `getOpponentColor` in the
    AI): black maps to white, anything else to black. -/
def getOpponent (p : Cell) : Cell :=
  if p = Cell.black then Cell.white else Cell.black

/-- `createEmptyBoard(boardSize)`. -/
def createEmptyBoard (boardSize : Nat) : Board :=
  List.replicate boardSize (List.replicate boardSize Cell.empty)

/-- The engine object's fields. -/
structure Engine where
  boardSize : Nat
  startingPlayer : Cell
  maxHistory : Option Nat
  board : Board
  currentPlayer : Cell
  gameOver : Bool
  moveHistory : List Move
  lastMove : Option Move
  winningSequence : List Pos
deriving DecidableEq, Repr

/-- `new GomokuEngine({boardSize, startingPlayer, maxHistory})` followed by
    the constructor's `reset()`: `startingPlayer` is normalized to white or
    black and `maxHistory` only takes effect when a positive integer. -/
def Engine.init (boardSize : Nat) (startingPlayer : Cell) (maxHistory : Option Int) : Engine :=
  let sp := if startingPlayer = Cell.white then Cell.white else Cell.black
  let mh : Option Nat :=
    match maxHistory with
    | some m => if 0 < m then some m.toNat else none
    | none => none
  { boardSize := boardSize
    startingPlayer := sp
    maxHistory := mh
    board := createEmptyBoard boardSize
    currentPlayer := sp
    gameOver := false
    moveHistory := []
    lastMove := none
    winningSequence := [] }

/-- The tagged outcome returned by `applyMove`. -/
inductive Outcome where
  | invalid (reason : String)
  | win (player : Cell) (move : Pos) (winningSequence : List Pos)
  | draw (player : Cell) (move : Pos)
  | cont (player : Cell) (move : Pos)
deriving DecidableEq, Repr

/-- `applyMove(row, col)`: game-over, bounds and occupancy checks in source
    order, then placement, history push (with single-element eviction when
    `maxHistory` is exceeded), win check, and draw check. -/
def applyMove (e : Engine) (row col : Int) : Engine × Outcome :=
  if e.gameOver then (e, Outcome.invalid "game-over")
  else if isInside e.boardSize row col = false then (e, Outcome.invalid "out-of-bounds")
  else if getCell e.board row col ≠ Cell.empty then (e, Outcome.invalid "occupied")
  else
    let player := e.currentPlayer
    let b := setCell e.board row col player
    let m : Move := ⟨row, col, player⟩
    let hist0 := e.moveHistory ++ [m]
    let hist :=
      match e.maxHistory with
      | some mx => if mx < hist0.length then hist0.drop 1 else hist0
      | none => hist0
    match determineWinningSequence b row col with
    | some wd =>
      ({ e with
          board := b
          moveHistory := hist
          lastMove := some m
          gameOver := true
          winningSequence := wd.sequence },
        Outcome.win player ⟨row, col⟩ wd.sequence)
    | none =>
      if checkDraw b then
        ({ e with
            board := b
            moveHistory := hist
            lastMove := some m
            gameOver := true
            winningSequence := [] },
          Outcome.draw player ⟨row, col⟩)
      else
        ({ e with
            board := b
            moveHistory := hist
            lastMove := some m
            currentPlayer := getOpponent player
            winningSequence := [] },
          Outcome.cont player ⟨row, col⟩)

/-- The pop-and-clear loop of `undoLastMove`: pop up to `n` moves from the
    end of the history, clearing each popped move's cell; returns the new
    board, the remaining history, and the popped moves most-recent first. -/
def undoLoop : Nat → Board → List Move → Board × List Move × List Move
  | 0, b, hist => (b, hist, [])
  | n + 1, b, hist =>
    match hist.getLast? with
    | none => (b, hist, [])
    | some m =>
      let r := undoLoop n (setCell b m.row m.col Cell.empty) hist.dropLast
      (r.1, r.2.1, m :: r.2.2)

/-- `undoLastMove(steps)`: returns the updated engine and the list of
    removed moves.  `steps <= 0` is an early no-op return; otherwise the
    loop pops, then last-move/current-player are recomputed only when at
    least one move was removed, and the terminal flag and winning sequence
    are cleared. -/
def undoLastMove (e : Engine) (steps : Int) : Engine × List Move :=
  let remaining := (max 0 steps).toNat
  if remaining = 0 then (e, [])
  else
    let r := undoLoop remaining e.board e.moveHistory
    let b' := r.1
    let hist' := r.2.1
    let undone := r.2.2
    if undone.isEmpty then
      ({ e with
          board := b'
          moveHistory := hist'
          gameOver := false
          winningSequence := [] }, undone)
    else
      let mostRecent := hist'.getLast?
      ({ e with
          board := b'
          moveHistory := hist'
          lastMove := mostRecent
          currentPlayer :=
            match mostRecent with
            | some m => getOpponent m.player
            | none => e.startingPlayer
          gameOver := false
          winningSequence := [] }, undone)

/-- The serialized engine state produced by `toJSON()` and consumed by
    `loadState`/`fromState`.  `loadState` reads only `board`,
    `currentPlayer`, `moveHistory` and `startingPlayer`; the terminal flag
    and winning sequence are re-inferred from the board. -/
structure Snapshot where
  board : Board
  currentPlayer : Cell
  moveHistory : List Move
  startingPlayer : Cell
  gameOver : Bool
  winningSequence : List Pos
deriving DecidableEq, Repr

/-- `validateBoardState(board, boardSize)`: the board must be a
    `boardSize`-length list of `boardSize`-length rows.  Cell values are
    legal by construction here, since `Cell` has exactly the three values
    the source accepts. -/
def validateBoardState (b : Board) (boardSize : Nat) : Option Board :=
  if b.length = boardSize ∧ (b.all fun row => decide (row.length = boardSize)) then some b
  else none

/-- The history-validation `map` inside `loadState`: normalize entries in
    order, stopping at the first entry that is out of bounds or that
    disagrees with the board. -/
def validateHistory (b : Board) (boardSize : Nat) : List Move → Except String (List Move)
  | [] => Except.ok []
  | m :: rest =>
    let p := if m.player = Cell.white then Cell.white else Cell.black
    if isInside boardSize m.row m.col = false then
      Except.error "Move history entry out of bounds"
    else if getCell b m.row m.col ≠ p then
      Except.error "Move history entry does not match board state"
    else
      (validateHistory b boardSize rest).map fun ms => ⟨m.row, m.col, p⟩ :: ms

/-- `loadState(state)`.  The result pairs the engine state at the point of
    return with `none`, or the engine state at the point of the throw with
    the thrown message: the source assigns `board`, `startingPlayer` and
    `currentPlayer` before validating the history, so a history error
    leaves those fields already overwritten. -/
def loadState (e : Engine) (s : Snapshot) : Engine × Option String :=
  match validateBoardState s.board e.boardSize with
  | none => (e, some "Invalid board state")
  | some b =>
    let e1 := { e with
      board := b
      startingPlayer := if s.startingPlayer = Cell.white then Cell.white else Cell.black
      currentPlayer := if s.currentPlayer = Cell.white then Cell.white else Cell.black }
    match validateHistory b e.boardSize s.moveHistory with
    | Except.error msg => (e1, some msg)
    | Except.ok hist0 =>
      let hist :=
        match e.maxHistory with
        | some mx => if mx < hist0.length then hist0.drop (hist0.length - mx) else hist0
        | none => hist0
      let e2 := { e1 with moveHistory := hist, lastMove := hist.getLast? }
      let e3 :=
        match findWinningSequence b with
        | some wd => { e2 with gameOver := true, winningSequence := wd.sequence }
        | none =>
          if checkDraw b then { e2 with gameOver := true, winningSequence := [] }
          else { e2 with gameOver := false, winningSequence := [] }
      (e3, none)

/-- `toJSON()`: a full snapshot of the engine state. -/
def toJSON (e : Engine) : Snapshot :=
  ⟨e.board, e.currentPlayer, e.moveHistory, e.startingPlayer, e.gameOver, e.winningSequence⟩

/-- `GomokuEngine.fromState(state)` with no options: board size taken from
    the snapshot's board, starting player from the snapshot, no history
    cap, then `loadState`. -/
def fromState (s : Snapshot) : Engine × Option String :=
  loadState (Engine.init s.board.length s.startingPlayer none) s

/-- Fold a list of attempted moves through `applyMove`, keeping only the
    final engine (a driver loop that ignores outcomes). -/
def playMoves (e : Engine) (ms : List (Int × Int)) : Engine :=
  ms.foldl (fun e m => (applyMove e m.1 m.2).1) e

/-- Fold a list of attempted moves through `applyMove`, collecting the
    outcome of every call. -/
def applyMoves (e : Engine) : List (Int × Int) → Engine × List Outcome
  | [] => (e, [])
  | m :: ms =>
    let r := applyMove e m.1 m.2
    let rest := applyMoves r.1 ms
    (rest.1, r.2 :: rest.2)

/-! ## Claim C1: `applyMove` validation order and invalid outcomes -/

/-- On a terminal engine, `applyMove` is rejected without any state change. -/
theorem applyMove_gameOver (e : Engine) (row col : Int) (h : e.gameOver = true) :
    applyMove e row col = (e, Outcome.invalid "game-over") := by
  unfold applyMove
  simp [h]

/-- **C1.** `applyMove` validates in the order game-over, bounds, occupancy:
    the reason `"game-over"` is returned exactly when the engine is terminal,
    `"out-of-bounds"` exactly when it is not terminal and the coordinate is
    outside the grid, and `"occupied"` exactly when it is not terminal, the
    coordinate is inside, and the cell is non-empty; and every invalid
    outcome has one of these three reasons and leaves the entire engine
    state (board, current player, history, terminal flag) unchanged. -/
theorem applyMove_invalid_taxonomy (e : Engine) (row col : Int) :
    ((applyMove e row col).2 = Outcome.invalid "game-over" ↔ e.gameOver = true) ∧
    ((applyMove e row col).2 = Outcome.invalid "out-of-bounds" ↔
      (e.gameOver = false ∧ isInside e.boardSize row col = false)) ∧
    ((applyMove e row col).2 = Outcome.invalid "occupied" ↔
      (e.gameOver = false ∧ isInside e.boardSize row col = true ∧
        getCell e.board row col ≠ Cell.empty)) ∧
    (∀ reason, (applyMove e row col).2 = Outcome.invalid reason →
      (applyMove e row col).1 = e ∧
      (reason = "game-over" ∨ reason = "out-of-bounds" ∨ reason = "occupied")) := by
  by_cases hg : e.gameOver
  · simp [applyMove, hg]
  · by_cases hb : isInside e.boardSize row col
    · by_cases ho : getCell e.board row col = Cell.empty
      · unfold applyMove
        simp only [hg, if_false, hb, Bool.true_eq_false, if_false, ho,
          ne_eq, not_true_eq_false, if_false]
        cases hw : determineWinningSequence (setCell e.board row col e.currentPlayer) row col with
        | some wd => simp
        | none =>
          by_cases hd : checkDraw (setCell e.board row col e.currentPlayer)
          · simp [hd]
          · simp [hd]
      · simp [applyMove, hg, hb, ho]
    · simp [applyMove, hg, hb, eq_false_of_ne_true hb]

/-- Witness for C1 at concrete inputs: on a fresh engine, the coordinate
    `(20, 3)` is rejected as out-of-bounds with no state change. -/
theorem applyMove_invalid_taxonomy_witness :
    (applyMove (Engine.init 15 Cell.black none) 20 3).2 = Outcome.invalid "out-of-bounds" ∧
    (applyMove (Engine.init 15 Cell.black none) 20 3).1 = Engine.init 15 Cell.black none := by
  have h := applyMove_invalid_taxonomy (Engine.init 15 Cell.black none) 20 3
  have hv : (applyMove (Engine.init 15 Cell.black none) 20 3).2 =
      Outcome.invalid "out-of-bounds" := h.2.1.mpr ⟨rfl, by decide⟩
  exact ⟨hv, (h.2.2.2 "out-of-bounds" hv).1⟩

/-! ## Claim C3: terminal states are absorbing -/

/-- A `win` or `draw` outcome comes with a terminal resulting engine. -/
theorem gameOver_of_win_or_draw (e : Engine) (row col : Int)
    (h : (∃ p mv ws, (applyMove e row col).2 = Outcome.win p mv ws) ∨
         (∃ p mv, (applyMove e row col).2 = Outcome.draw p mv)) :
    (applyMove e row col).1.gameOver = true := by
  by_cases hg : e.gameOver
  · rcases h with ⟨p, mv, ws, hh⟩ | ⟨p, mv, hh⟩ <;> simp [applyMove, hg] at hh
  · by_cases hb : isInside e.boardSize row col
    · by_cases ho : getCell e.board row col = Cell.empty
      · unfold applyMove
        simp only [hg, if_false, hb, Bool.true_eq_false, if_false, ho,
          ne_eq, not_true_eq_false, if_false]
        cases hw : determineWinningSequence (setCell e.board row col e.currentPlayer) row col with
        | some wd => simp
        | none =>
          by_cases hd : checkDraw (setCell e.board row col e.currentPlayer)
          · simp [hd]
          · exfalso
            rcases h with ⟨p, mv, ws, hh⟩ | ⟨p, mv, hh⟩ <;>
              simp [applyMove, hg, hb, ho, hw, hd] at hh
      · rcases h with ⟨p, mv, ws, hh⟩ | ⟨p, mv, hh⟩ <;>
          simp [applyMove, hg, hb, ho] at hh
    · rcases h with ⟨p, mv, ws, hh⟩ | ⟨p, mv, hh⟩ <;>
        simp [applyMove, hg, eq_false_of_ne_true hb] at hh

/-- On a terminal engine, any sequence of `applyMove` attempts returns
    `Invalid("game-over")` at every step and never changes the engine. -/
theorem applyMoves_gameOver (ms : List (Int × Int)) :
    ∀ e : Engine, e.gameOver = true →
      applyMoves e ms = (e, ms.map fun _ => Outcome.invalid "game-over") := by
  induction ms with
  | nil => intro e _; rfl
  | cons m ms ih =>
    intro e hterm
    have hm := applyMove_gameOver e m.1 m.2 hterm
    simp [applyMoves, hm, ih e hterm]

/-- **C3.** After an `applyMove` call that returned `Win` or `Draw`, the
    resulting engine is terminal, every later sequence of `applyMove`
    attempts returns `Invalid("game-over")` at each step and leaves the
    engine (in particular its board) unchanged, and `undoLastMove(0)` also
    leaves it unchanged: the terminal state is absorbing under `applyMove`
    and `undoLastMove(0)`. -/
theorem terminal_absorbing (e : Engine) (row col : Int)
    (h : (∃ p mv ws, (applyMove e row col).2 = Outcome.win p mv ws) ∨
         (∃ p mv, (applyMove e row col).2 = Outcome.draw p mv)) :
    (applyMove e row col).1.gameOver = true ∧
    (∀ ms : List (Int × Int),
      applyMoves (applyMove e row col).1 ms =
        ((applyMove e row col).1, ms.map fun _ => Outcome.invalid "game-over")) ∧
    undoLastMove (applyMove e row col).1 0 = ((applyMove e row col).1, []) := by
  have hterm := gameOver_of_win_or_draw e row col h
  refine ⟨hterm, fun ms => applyMoves_gameOver ms _ hterm, ?_⟩
  unfold undoLastMove
  simp

/-- A concrete game ending in a win used by the C3 witness: black plays on
    row 7 and completes five in a row at `(7, 4)`. -/
def winGameC3 : Engine :=
  playMoves (Engine.init 15 Cell.black none)
    [(7,0),(0,0),(7,1),(0,1),(7,2),(0,2),(7,3),(0,3)]

/-- Witness for C3: in the concrete won game, the two follow-up attempts
    `(3,3)` and `(7,4)` are both rejected with reason `"game-over"` and the
    engine is unchanged, as is `undoLastMove(0)`. -/
theorem terminal_absorbing_witness :
    (applyMove winGameC3 7 4).1.gameOver = true ∧
    applyMoves (applyMove winGameC3 7 4).1 [(3,3),(7,4)] =
      ((applyMove winGameC3 7 4).1,
        [Outcome.invalid "game-over", Outcome.invalid "game-over"]) ∧
    undoLastMove (applyMove winGameC3 7 4).1 0 = ((applyMove winGameC3 7 4).1, []) := by
  have h := terminal_absorbing winGameC3 7 4
    (Or.inl ⟨Cell.black, ⟨7,4⟩, [⟨7,4⟩,⟨7,3⟩,⟨7,2⟩,⟨7,1⟩,⟨7,0⟩], by rfl⟩)
  exact ⟨h.1, h.2.1 [(3,3),(7,4)], h.2.2⟩

/-! ## Claim C2: `determineWinningSequence` finds five-in-a-row -/

/-- If a walk of `m` unit steps in direction `(dx, dy)` starts and ends
    inside an `n × n` grid, then `m ≤ n`. -/
theorem isInside_steps_le (n : Nat) (row col dx dy : Int) (m : Nat)
    (hd : dx = 1 ∨ dx = -1 ∨ dy = 1 ∨ dy = -1)
    (h0 : isInside n row col = true)
    (hm : isInside n (row + (m : Int) * dx) (col + (m : Int) * dy) = true) :
    m ≤ n := by
  unfold isInside at h0 hm
  simp only [Bool.and_eq_true, decide_eq_true_eq] at h0 hm
  obtain ⟨⟨⟨hr0, hrn⟩, hc0⟩, hcn⟩ := h0
  obtain ⟨⟨⟨hmr0, hmrn⟩, hmc0⟩, hmcn⟩ := hm
  rcases hd with h | h | h | h
  · subst h; rw [mul_one] at hmrn; omega
  · subst h; rw [mul_neg_one] at hmr0; omega
  · subst h; rw [mul_one] at hmcn; omega
  · subst h; rw [mul_neg_one] at hmc0; omega

/-- Lower bound for the `collectLine` walk: if the `m` cells after the
    origin along `(dx, dy)` are all in-bounds stones of `player`, and the
    fuel covers them, the walk collects at least `m` cells. -/
theorem collectLineFuel_length_ge (b : Board) (player : Cell) (dx dy : Int) :
    ∀ (m fuel : Nat) (row col : Int), m ≤ fuel →
      (∀ k : Nat, 1 ≤ k → k ≤ m →
        isInside b.length (row + (k : Int) * dx) (col + (k : Int) * dy) = true ∧
        getCell b (row + (k : Int) * dx) (col + (k : Int) * dy) = player) →
      m ≤ (collectLineFuel b player dx dy fuel row col).length := by
  intro m
  induction m with
  | zero => intro fuel row col _ _; exact Nat.zero_le _
  | succ m ih =>
    intro fuel row col hle hcells
    obtain ⟨f, rfl⟩ : ∃ f, fuel = f + 1 := ⟨fuel - 1, by omega⟩
    have h1 := hcells 1 le_rfl (by omega)
    rw [show ((1 : Nat) : Int) = 1 from rfl, one_mul, one_mul] at h1
    simp only [collectLineFuel]
    rw [if_pos (by rw [h1.1, h1.2]; simp)]
    simp only [List.length_cons]
    have hge := ih f (row + dx) (col + dy) (by omega) ?_
    · omega
    · intro k hk1 hkm
      have h2 := hcells (k + 1) (by omega) (by omega)
      have er : row + dx + (k : Int) * dx = row + ((k + 1 : Nat) : Int) * dx := by
        push_cast; ring
      have ec : col + dy + (k : Int) * dy = col + ((k + 1 : Nat) : Int) * dy := by
        push_cast; ring
      rw [er, ec]
      exact h2

/-- Each axis of `winDirections` has a unit first or second component. -/
theorem winDirections_comp (d : Int × Int) (hd : d ∈ winDirections) :
    d.1 = 1 ∨ d.1 = -1 ∨ d.2 = 1 ∨ d.2 = -1 := by
  fin_cases hd <;> decide

/-- If a length-5 window of `player` stones along axis `(dx, dy)` contains
    the origin at offset `j`, the line collected through the origin has
    length at least 5. -/
theorem lineThrough_length_ge (b : Board) (row col dx dy : Int) (player : Cell)
    (hcomp : dx = 1 ∨ dx = -1 ∨ dy = 1 ∨ dy = -1)
    (j : Nat) (hj : j ≤ 4)
    (hcells : ∀ k : Nat, k ≤ 4 →
      isInside b.length (row + ((k : Int) - (j : Int)) * dx)
          (col + ((k : Int) - (j : Int)) * dy) = true ∧
        getCell b (row + ((k : Int) - (j : Int)) * dx)
          (col + ((k : Int) - (j : Int)) * dy) = player) :
    5 ≤ (lineThrough b row col (dx, dy) player).length := by
  have h0 := (hcells j hj).1
  rw [show row + ((j : Int) - (j : Int)) * dx = row by ring,
    show col + ((j : Int) - (j : Int)) * dy = col by ring] at h0
  have hcomp' : -dx = 1 ∨ -dx = -1 ∨ -dy = 1 ∨ -dy = -1 := by
    rcases hcomp with h | h | h | h <;> subst h <;> simp
  have hfwd : 4 - j ≤ (collectLine b row col dx dy player).length := by
    apply collectLineFuel_length_ge
    · have h4 := (hcells 4 (by omega)).1
      rw [show row + (((4 : Nat) : Int) - (j : Int)) * dx = row + (((4 - j : Nat) : Int)) * dx by
          push_cast [hj]; ring,
        show col + (((4 : Nat) : Int) - (j : Int)) * dy = col + (((4 - j : Nat) : Int)) * dy by
          push_cast [hj]; ring] at h4
      exact isInside_steps_le b.length row col dx dy (4 - j) hcomp h0 h4
    · intro k hk1 hkm
      have h2 := hcells (j + k) (by omega)
      rw [show row + (((j + k : Nat) : Int) - (j : Int)) * dx = row + (k : Int) * dx by
          push_cast; ring,
        show col + (((j + k : Nat) : Int) - (j : Int)) * dy = col + (k : Int) * dy by
          push_cast; ring] at h2
      exact h2
  have hbwd : j ≤ (collectLine b row col (-dx) (-dy) player).length := by
    apply collectLineFuel_length_ge
    · have hb := (hcells 0 (by omega)).1
      rw [show row + (((0 : Nat) : Int) - (j : Int)) * dx = row + ((j : Nat) : Int) * (-dx) by
          push_cast; ring,
        show col + (((0 : Nat) : Int) - (j : Int)) * dy = col + ((j : Nat) : Int) * (-dy) by
          push_cast; ring] at hb
      exact isInside_steps_le b.length row col (-dx) (-dy) j hcomp' h0 hb
    · intro k hk1 hkm
      have h2 := hcells (j - k) (by omega)
      rw [show row + (((j - k : Nat) : Int) - (j : Int)) * dx = row + (k : Int) * (-dx) by
          push_cast [show k ≤ j from hkm]; ring,
        show col + (((j - k : Nat) : Int) - (j : Int)) * dy = col + (k : Int) * (-dy) by
          push_cast [show k ≤ j from hkm]; ring] at h2
      exact h2
  simp only [lineThrough, List.length_cons, List.length_append]
  omega

/-- **C2.** For every board and in-bounds origin: (a) if a window of five
    contiguous same-color stones along one of the four axes passes through
    the origin (offset `j` inside the window), `determineWinningSequence`
    returns a sequence of length at least 5 containing the origin; and
    (b) if the origin cell is empty it returns `none`. -/
theorem determineWinningSequence_spec (b : Board) (row col : Int) :
    (∀ player : Cell, player ≠ Cell.empty →
      (∃ d ∈ winDirections, ∃ j : Fin 5, ∀ k : Fin 5,
        isInside b.length (row + (((k : Nat) : Int) - ((j : Nat) : Int)) * d.1)
            (col + (((k : Nat) : Int) - ((j : Nat) : Int)) * d.2) = true ∧
          getCell b (row + (((k : Nat) : Int) - ((j : Nat) : Int)) * d.1)
            (col + (((k : Nat) : Int) - ((j : Nat) : Int)) * d.2) = player) →
      ∃ wd, determineWinningSequence b row col = some wd ∧
        5 ≤ wd.sequence.length ∧ (⟨row, col⟩ : Pos) ∈ wd.sequence) ∧
    (getCell b row col = Cell.empty → determineWinningSequence b row col = none) := by
  constructor
  · rintro player hp ⟨d, hd, j, hcells⟩
    obtain ⟨dx, dy⟩ := d
    have horig : getCell b row col = player := by
      have h := (hcells j).2
      rw [show row + (((j : Nat) : Int) - ((j : Nat) : Int)) * dx = row by ring,
        show col + (((j : Nat) : Int) - ((j : Nat) : Int)) * dy = col by ring] at h
      exact h
    have hlen : 5 ≤ (lineThrough b row col (dx, dy) player).length := by
      apply lineThrough_length_ge b row col dx dy player
        (winDirections_comp (dx, dy) hd) (j : Nat) (by omega)
      intro k hk
      have h := hcells ⟨k, by omega⟩
      simpa using h
    have hfind : (winDirections.find? fun d =>
        decide (5 ≤ (lineThrough b row col d player).length)).isSome := by
      rw [List.find?_isSome]
      exact ⟨(dx, dy), hd, by simpa using hlen⟩
    obtain ⟨a, ha⟩ := Option.isSome_iff_exists.mp hfind
    have hpa : 5 ≤ (lineThrough b row col a player).length := by
      have := List.find?_some ha
      simpa using this
    refine ⟨⟨lineThrough b row col a player, a⟩, ?_, hpa, ?_⟩
    · simp only [determineWinningSequence]
      rw [horig, if_neg hp, ha]
      rfl
    · simp [lineThrough]
  · intro h
    simp only [determineWinningSequence]
    rw [h, if_pos rfl]

/-- A 15×15 board with five black stones on row 7, columns 0–4. -/
def winRowBoard : Board :=
  (List.range 5).foldl (fun b c => setCell b 7 (c : Int) Cell.black) (createEmptyBoard 15)

/-- Witness for C2 at concrete inputs: through `(7, 2)` (window offset 2 on
    the horizontal axis) a winning sequence containing `(7, 2)` is found,
    and the empty origin `(0, 0)` yields `none`. -/
theorem determineWinningSequence_spec_witness :
    (∃ wd, determineWinningSequence winRowBoard 7 2 = some wd ∧
      5 ≤ wd.sequence.length ∧ (⟨7, 2⟩ : Pos) ∈ wd.sequence) ∧
    determineWinningSequence winRowBoard 0 0 = none := by
  constructor
  · exact (determineWinningSequence_spec winRowBoard 7 2).1 Cell.black (by decide)
      ⟨(0, 1), by decide, ⟨2, by decide⟩, by decide⟩
  · exact (determineWinningSequence_spec winRowBoard 0 0).2 (by decide)

/-! ## Claim C8: `undoLastMove` semantics -/

/-- Closed form of the pop-and-clear loop: it removes the last
    `min n (length hist)` history entries, returns them most-recent first,
    and clears their cells in that order. -/
theorem undoLoop_eq (n : Nat) :
    ∀ (b : Board) (hist : List Move),
      undoLoop n b hist =
        ((hist.drop (hist.length - min n hist.length)).reverse.foldl
            (fun bb m => setCell bb m.row m.col Cell.empty) b,
          hist.take (hist.length - min n hist.length),
          (hist.drop (hist.length - min n hist.length)).reverse) := by
  induction n with
  | zero => intro b hist; simp [undoLoop]
  | succ n ih =>
    intro b hist
    rcases hist.eq_nil_or_concat with hnil | ⟨l, a, hconcat⟩
    · subst hnil; simp [undoLoop]
    · rw [List.concat_eq_append] at hconcat
      subst hconcat
      unfold undoLoop
      rw [List.getLast?_concat]
      simp only [List.dropLast_concat]
      rw [ih (setCell b a.row a.col Cell.empty) l]
      have hle : l.length - min n l.length ≤ l.length := Nat.sub_le _ _
      have hsub : l.length + 1 - min (n + 1) (l.length + 1) =
          l.length - min n l.length := by
        rw [Nat.succ_min_succ]; omega
      simp only [List.length_append, List.length_singleton, hsub,
        List.drop_append_of_le_length hle, List.take_append_of_le_length hle,
        List.reverse_append, List.reverse_singleton, List.singleton_append,
        List.foldl_cons]

/-- The concrete terminal engine obtained by finishing `winGameC3`. -/
def wonEngineC3 : Engine := (applyMove winGameC3 7 4).1

/-- Counterexample to C8 as stated: the claim says `undoLastMove`
    "unconditionally clears the terminal flag and the winning sequence —
    including when n = 0", but on the concrete won engine `undoLastMove(0)`
    takes the early-return path and the terminal flag stays `true` (and the
    winning sequence stays non-empty). -/
theorem undoLastMove_zero_counterexample :
    wonEngineC3.gameOver = true ∧
    (undoLastMove wonEngineC3 0).1.gameOver = true ∧
    (undoLastMove wonEngineC3 0).1.winningSequence ≠ [] := by
  refine ⟨by rfl, by rfl, by decide⟩

/-- **C8 (amended).** `undoLastMove(n)` removes exactly
    `min n (history length)` most-recent moves, clears their cells (in pop
    order), and returns them most-recent first.  For `n = 0` it returns
    `[]` and changes nothing at all (the terminal flag is *not* cleared).
    For `n ≥ 1` it clears the terminal flag and winning sequence; when at
    least one move was removed it also recomputes the last move and sets
    the current player to the opponent of the new most-recent remaining
    move (or the starting player when the history becomes empty), while an
    undo on an already-empty history leaves board, history, current player
    and last move untouched. -/
theorem undoLastMove_spec (e : Engine) (n : Nat) :
    (undoLastMove e (n : Int)).2 =
      (e.moveHistory.drop (e.moveHistory.length - min n e.moveHistory.length)).reverse ∧
    (n = 0 → undoLastMove e (n : Int) = (e, [])) ∧
    (0 < n → e.moveHistory = [] →
      undoLastMove e (n : Int) =
        ({ e with gameOver := false, winningSequence := [] }, [])) ∧
    (0 < n → e.moveHistory ≠ [] →
      undoLastMove e (n : Int) =
        ({ e with
            board :=
              (e.moveHistory.drop
                  (e.moveHistory.length - min n e.moveHistory.length)).reverse.foldl
                (fun b m => setCell b m.row m.col Cell.empty) e.board
            moveHistory :=
              e.moveHistory.take (e.moveHistory.length - min n e.moveHistory.length)
            lastMove :=
              (e.moveHistory.take
                (e.moveHistory.length - min n e.moveHistory.length)).getLast?
            currentPlayer :=
              match (e.moveHistory.take
                  (e.moveHistory.length - min n e.moveHistory.length)).getLast? with
                | some m => getOpponent m.player
                | none => e.startingPlayer
            gameOver := false
            winningSequence := [] },
          (e.moveHistory.drop
            (e.moveHistory.length - min n e.moveHistory.length)).reverse)) := by
  have hrem : (max 0 ((n : Int))).toNat = n := by omega
  by_cases hn : n = 0
  · subst hn
    refine ⟨?_, fun _ => ?_, fun h0 _ => absurd h0 (by omega), fun h0 _ => absurd h0 (by omega)⟩
    · simp [undoLastMove]
    · simp [undoLastMove]
  · rcases Classical.em (e.moveHistory = []) with hemp | hne
    · have hloop := undoLoop_eq n e.board e.moveHistory
      rw [hemp] at hloop
      simp only [List.drop_nil, List.take_nil, List.reverse_nil, List.foldl_nil] at hloop
      refine ⟨?_, fun h0 => absurd h0 hn, fun _ _ => ?_, fun _ habs => absurd hemp habs⟩ <;>
        simp [undoLastMove, hrem, hn, hemp, hloop]
    · have hloop := undoLoop_eq n e.board e.moveHistory
      have hklen : 0 < min n e.moveHistory.length := by
        have h1 : 0 < e.moveHistory.length := List.length_pos.mpr hne
        omega
      have hulen :
          (e.moveHistory.drop
            (e.moveHistory.length - min n e.moveHistory.length)).reverse.length =
            min n e.moveHistory.length := by
        simp only [List.length_reverse, List.length_drop]
        omega
      have hune :
          (e.moveHistory.drop
            (e.moveHistory.length - min n e.moveHistory.length)).reverse ≠ [] := by
        intro habs
        rw [habs] at hulen
        simp at hulen
        omega
      refine ⟨?_, fun h0 => absurd h0 hn, fun _ habs => absurd habs hne, fun _ _ => ?_⟩ <;>
        simp [undoLastMove, hrem, hn, hloop, hune]

/-- A short concrete game (three moves) used by the C8 witness. -/
def undoDemo : Engine :=
  playMoves (Engine.init 15 Cell.black none) [(7,0),(0,0),(7,1)]

/-- Witness for C8 (amended) at a concrete input: undoing 2 of the 3 moves
    returns them most-recent first, clears the flag, and hands the turn to
    white (the opponent of the remaining black move). -/
theorem undoLastMove_spec_witness :
    (undoLastMove undoDemo ((2 : Nat) : Int)).2 =
      [⟨7, 1, Cell.black⟩, ⟨0, 0, Cell.white⟩] ∧
    (undoLastMove undoDemo ((2 : Nat) : Int)).1.gameOver = false ∧
    (undoLastMove undoDemo ((2 : Nat) : Int)).1.currentPlayer = Cell.white ∧
    (undoLastMove undoDemo ((2 : Nat) : Int)).1.moveHistory = [⟨7, 0, Cell.black⟩] := by
  have h := undoLastMove_spec undoDemo 2
  have h4 := h.2.2.2 (by decide) (by decide)
  rw [h4]
  decide

/-! ## Claim C5: `loadState` failure is observable (not atomic) -/

/-- If some history entry is out of bounds or disagrees with the board,
    the history-validation map throws. -/
theorem validateHistory_error (b : Board) (n : Nat) :
    ∀ ms : List Move,
      (∃ m ∈ ms, isInside n m.row m.col = false ∨
        getCell b m.row m.col ≠ (if m.player = Cell.white then Cell.white else Cell.black)) →
      ∃ msg, validateHistory b n ms = Except.error msg := by
  intro ms
  induction ms with
  | nil => rintro ⟨m, hm, _⟩; cases hm
  | cons m rest ih =>
    rintro ⟨m', hm', hbad⟩
    unfold validateHistory
    by_cases hins : isInside n m.row m.col = false
    · simp [hins]
    · have hins' : isInside n m.row m.col = true := by
        cases h : isInside n m.row m.col
        · exact absurd h hins
        · rfl
      by_cases hmatch : getCell b m.row m.col =
          (if m.player = Cell.white then Cell.white else Cell.black)
      · rcases List.mem_cons.mp hm' with rfl | hmem
        · rcases hbad with hb | hb
          · rw [hins'] at hb; cases hb
          · exact absurd hmatch hb
        · obtain ⟨msg, hmsg⟩ := ih ⟨m', hmem, hbad⟩
          refine ⟨msg, ?_⟩
          simp [hins', hmatch, hmsg, Except.map]
      · simp [hins', hmatch]

/-- **C5 (amended).** When the snapshot's board has valid dimensions but
    its history contains an out-of-bounds entry or an entry disagreeing
    with the board, `loadState` throws; the prior move history, last move,
    terminal flag and winning sequence are still observable, but the
    engine's board, current player and starting player have already been
    overwritten with the snapshot's values at the point of the throw — the
    failed load is not atomic. -/
theorem loadState_history_error_not_atomic (e : Engine) (s : Snapshot)
    (hlen : s.board.length = e.boardSize)
    (hrows : ∀ row ∈ s.board, row.length = e.boardSize)
    (hbad : ∃ m ∈ s.moveHistory, isInside e.boardSize m.row m.col = false ∨
      getCell s.board m.row m.col ≠
        (if m.player = Cell.white then Cell.white else Cell.black)) :
    ∃ msg, loadState e s =
      ({ e with
          board := s.board
          startingPlayer := if s.startingPlayer = Cell.white then Cell.white else Cell.black
          currentPlayer := if s.currentPlayer = Cell.white then Cell.white else Cell.black },
        some msg) := by
  have hval : validateBoardState s.board e.boardSize = some s.board := by
    unfold validateBoardState
    rw [if_pos]
    refine ⟨hlen, ?_⟩
    rw [List.all_eq_true]
    intro row hrow
    exact decide_eq_true (hrows row hrow)
  obtain ⟨msg, hmsg⟩ := validateHistory_error s.board e.boardSize s.moveHistory hbad
  refine ⟨msg, ?_⟩
  unfold loadState
  rw [hval]
  simp only [hmsg]

/-- The inconsistent snapshot used by the C5 counterexample and witness: a
    black stone at `(0, 0)` but a history entry claiming white played
    there. -/
def badSnap : Snapshot :=
  { board := setCell (createEmptyBoard 15) 0 0 Cell.black
    currentPlayer := Cell.white
    moveHistory := [⟨0, 0, Cell.white⟩]
    startingPlayer := Cell.black
    gameOver := false
    winningSequence := [] }

/-- Counterexample to C5 as stated: on a fresh engine, loading `badSnap`
    throws (the history entry disagrees with the board), yet the engine's
    board at the point of the throw differs from its board before the call
    — the claim's "observable state is identical to its state before the
    loadState call" is false. -/
theorem loadState_counterexample :
    (loadState (Engine.init 15 Cell.black none) badSnap).2.isSome = true ∧
    (loadState (Engine.init 15 Cell.black none) badSnap).1.board ≠
      (Engine.init 15 Cell.black none).board ∧
    (loadState (Engine.init 15 Cell.black none) badSnap).1.currentPlayer ≠
      (Engine.init 15 Cell.black none).currentPlayer := by
  refine ⟨by decide, by decide, by decide⟩

/-- Witness for C5 (amended) at a concrete input: loading `badSnap` into a
    fresh engine produces exactly the partially-overwritten state. -/
theorem loadState_history_error_not_atomic_witness :
    ∃ msg, loadState (Engine.init 15 Cell.black none) badSnap =
      ({ Engine.init 15 Cell.black none with
          board := badSnap.board
          startingPlayer := Cell.black
          currentPlayer := Cell.white },
        some msg) := by
  obtain ⟨msg, hmsg⟩ := loadState_history_error_not_atomic
    (Engine.init 15 Cell.black none) badSnap (by decide) (by decide) (by decide)
  exact ⟨msg, by rw [hmsg]; rfl⟩

/-! ## Claim C7: `fromState ∘ toJSON` round trip -/

/-- If every history entry is in-bounds and matches the board, the
    history-validation map succeeds with the normalized entries. -/
theorem validateHistory_ok (b : Board) (n : Nat) :
    ∀ ms : List Move,
      (∀ m ∈ ms, isInside n m.row m.col = true ∧
        getCell b m.row m.col = (if m.player = Cell.white then Cell.white else Cell.black)) →
      validateHistory b n ms =
        Except.ok (ms.map fun m => ⟨m.row, m.col,
          if m.player = Cell.white then Cell.white else Cell.black⟩) := by
  intro ms
  induction ms with
  | nil => intro _; rfl
  | cons m rest ih =>
    intro h
    have hm := h m (List.mem_cons_self m rest)
    have hrest := ih fun x hx => h x (List.mem_cons_of_mem m hx)
    unfold validateHistory
    simp [hm.1, hm.2, hrest, Except.map]

/-- The round-tripped engine used by the C7 counterexample: serialize the
    concrete won game and load it back. -/
def rtEngineC7 : Engine := (fromState (toJSON wonEngineC3)).1

/-- Counterexample to C7 as stated: for the concrete engine that won by
    playing `(7,4)` last, the winning sequence recorded at the winning move
    starts at `(7,4)` and runs backwards, while the reloaded engine's
    whole-board scan finds the same line starting at `(7,0)` — the two
    `getWinningSequence()` results are not deep-equal (the order differs),
    even though the reload succeeds. -/
theorem fromState_roundtrip_counterexample :
    (fromState (toJSON wonEngineC3)).2 = none ∧
    wonEngineC3.winningSequence = [⟨7,4⟩, ⟨7,3⟩, ⟨7,2⟩, ⟨7,1⟩, ⟨7,0⟩] ∧
    rtEngineC7.winningSequence = [⟨7,0⟩, ⟨7,1⟩, ⟨7,2⟩, ⟨7,3⟩, ⟨7,4⟩] ∧
    rtEngineC7.winningSequence ≠ wonEngineC3.winningSequence := by
  refine ⟨by decide, by decide, by decide, by decide⟩

/-- **C7 (amended).** For every engine whose board is square, whose history
    entries match the board, and whose terminal flag and winning sequence
    agree with whole-board re-inference (as holds for any engine whose
    state was last produced by `loadState`/`fromState`),
    `fromState(engine.toJSON())` succeeds and reproduces identical
    `getBoard()`, `isGameOver()` and `getWinningSequence()`.  (Without the
    agreement hypothesis only the board is reproduced: after a win reached
    through `applyMove`, the reloaded sequence is the first line found by
    the row-major scan and may order the same stones differently.) -/
theorem fromState_toJSON_roundtrip (e : Engine)
    (hsq : ∀ row ∈ e.board, row.length = e.board.length)
    (hhist : ∀ m ∈ e.moveHistory, isInside e.board.length m.row m.col = true ∧
      getCell e.board m.row m.col = (if m.player = Cell.white then Cell.white else Cell.black))
    (hgo : match findWinningSequence e.board with
      | some wd => e.gameOver = true ∧ e.winningSequence = wd.sequence
      | none => e.gameOver = checkDraw e.board ∧ e.winningSequence = []) :
    (fromState (toJSON e)).2 = none ∧
    (fromState (toJSON e)).1.board = e.board ∧
    (fromState (toJSON e)).1.gameOver = e.gameOver ∧
    (fromState (toJSON e)).1.winningSequence = e.winningSequence := by
  have hval : validateBoardState e.board e.board.length = some e.board := by
    unfold validateBoardState
    rw [if_pos]
    exact ⟨rfl, by rw [List.all_eq_true]; intro r hr; exact decide_eq_true (hsq r hr)⟩
  have hhok := validateHistory_ok e.board e.board.length e.moveHistory hhist
  unfold fromState toJSON loadState
  have hbs : (Engine.init e.board.length e.startingPlayer none).boardSize = e.board.length := rfl
  have hmh : (Engine.init e.board.length e.startingPlayer none).maxHistory = none := rfl
  rw [hbs, hmh, hval]
  simp only [hhok]
  cases hfw : findWinningSequence e.board with
  | some wd =>
    rw [hfw] at hgo
    simp [hgo.1, hgo.2]
  | none =>
    rw [hfw] at hgo
    by_cases hd : checkDraw e.board
    · rw [hd] at hgo
      simp [hd, hgo.1, hgo.2]
    · have hdf : checkDraw e.board = false := by
        cases h : checkDraw e.board
        · rfl
        · exact absurd h hd
      rw [hdf] at hgo
      simp [hdf, hgo.1, hgo.2]

/-- Witness for C7 (amended) at a concrete input: the round-tripped won
    engine satisfies the agreement hypothesis, and a second round trip
    reproduces its board, terminal flag and winning sequence exactly. -/
theorem fromState_toJSON_roundtrip_witness :
    (fromState (toJSON rtEngineC7)).2 = none ∧
    (fromState (toJSON rtEngineC7)).1.board = rtEngineC7.board ∧
    (fromState (toJSON rtEngineC7)).1.gameOver = rtEngineC7.gameOver ∧
    (fromState (toJSON rtEngineC7)).1.winningSequence = rtEngineC7.winningSequence :=
  fromState_toJSON_roundtrip rtEngineC7 (by decide) (by decide)
    (by
      have h : findWinningSequence rtEngineC7.board =
          some ⟨[⟨7,0⟩, ⟨7,1⟩, ⟨7,2⟩, ⟨7,3⟩, ⟨7,4⟩], (0, 1)⟩ := by decide
      rw [h]
      exact ⟨by decide, by decide⟩)

/-! ## AI player (ai-player.js)

Read-only helpers are plain functions of the board; the functions that
mutate the board during simulation (`evaluateMove` and the candidate
loops) thread the board explicitly and return it, so that spec claims
about mutation/restoration are expressible.  The telemetry hook is
omitted: with no sink configured the source's `metrics` code reads and
writes only the metrics object, never the board or the chosen move.  The
injected random source is modeled by the single rational value it
returns; every `makeMove` path samples it at most once. -/

/-- Numbers extended with the `±Infinity` sentinels used by the search. -/
inductive Ext where
  | ninf
  | fin (n : Int)
  | pinf
deriving DecidableEq, Repr

/-- Comparison on extended numbers (`≤`). -/
def Ext.le : Ext → Ext → Bool
  | .ninf, _ => true
  | _, .pinf => true
  | .fin a, .fin b => decide (a ≤ b)
  | .pinf, _ => false
  | .fin _, .ninf => false

/-- `Math.max` on extended numbers. -/
def Ext.max (a b : Ext) : Ext := if Ext.le a b then b else a

/-- `Math.min` on extended numbers. -/
def Ext.min (a b : Ext) : Ext := if Ext.le a b then a else b

def EASY_CANDIDATE_LIMIT : Nat := 12
def EASY_TOP_CHOICES : Nat := 3
def MEDIUM_CANDIDATE_LIMIT : Nat := 12
def MEDIUM_RESPONSE_LIMIT : Nat := 6
def HARD_CANDIDATE_LIMIT : Nat := 8
def HARD_SEARCH_DEPTH : Nat := 3
def WIN_SCORE : Int := 1000000

/-- `scorePattern(length, backwardOpen, forwardOpen)` with the
    `PATTERN_SCORES` weight table inlined. -/
def scorePattern (length : Nat) (backwardOpen forwardOpen : Bool) : Int :=
  if 5 ≤ length then WIN_SCORE
  else
    let openEnds : Nat := (if backwardOpen then 1 else 0) + (if forwardOpen then 1 else 0)
    if openEnds = 0 then 0
    else
      match length with
      | 4 => if openEnds = 2 then 60000 else 15000
      | 3 => if openEnds = 2 then 7000 else 2000
      | 2 => if openEnds = 2 then 800 else 250
      | _ => 0

/-- The three difficulty tags accepted by the dispatch. -/
inductive Difficulty where
  | easy
  | medium
  | hard
deriving DecidableEq, Repr

/-- The AI player's per-instance configuration. -/
structure AIPlayer where
  difficulty : Difficulty
  playerColor : Cell
  random : ℚ
deriving DecidableEq, Repr

/-- `AIPlayer.isInside(row, col)`: bounds against the fixed `BOARD_SIZE`
    (the AI, unlike the engine, always uses the constant). -/
def aiInside (r c : Int) : Bool := isInside BOARD_SIZE r c

/-- `isEmptyCell(board, row, col)`. -/
def isEmptyCell (b : Board) (r c : Int) : Bool :=
  aiInside r c && decide (getCell b r c = Cell.empty)

/-- The while loop of `countStonesInDirection`, fuel-bounded (the walk
    stays inside the 15×15 grid, so `BOARD_SIZE` fuel is never exhausted
    for the unit directions used). -/
def countStonesFuel (b : Board) (player : Cell) (dx dy : Int) : Nat → Int → Int → Nat
  | 0, _, _ => 0
  | fuel + 1, row, col =>
    let x := row + dx
    let y := col + dy
    if aiInside x y && decide (getCell b x y = player) then
      countStonesFuel b player dx dy fuel x y + 1
    else 0

/-- `countStonesInDirection(board, row, col, dx, dy, player)`. -/
def countStonesInDirection (b : Board) (row col dx dy : Int) (player : Cell) : Nat :=
  countStonesFuel b player dx dy BOARD_SIZE row col

/-- `checkWinningMove(board, row, col, player)`: the cell itself plus the
    two opposite runs reach 5 in some axis (the AI re-declares the same
    four axes as the engine's `winDirections`). -/
def checkWinningMove (b : Board) (row col : Int) (player : Cell) : Bool :=
  winDirections.any fun d =>
    decide (5 ≤ 1 + countStonesInDirection b row col d.1 d.2 player
      + countStonesInDirection b row col (-d.1) (-d.2) player)

/-- `findWinningMove(board, player)`: row-major scan for the first empty
    cell whose occupation would complete five in a row. -/
def findWinningMove (b : Board) (player : Cell) : Option Pos :=
  (List.range BOARD_SIZE).findSome? fun (r : Nat) =>
    (List.range BOARD_SIZE).findSome? fun (c : Nat) =>
      if getCell b (r : Int) (c : Int) = Cell.empty ∧
          checkWinningMove b (r : Int) (c : Int) player = true then
        some ⟨(r : Int), (c : Int)⟩
      else none

/-- `findEmptyCells(board)` in row-major order. -/
def findEmptyCells (b : Board) : List Pos :=
  (List.range BOARD_SIZE).flatMap fun (r : Nat) =>
    (List.range BOARD_SIZE).filterMap fun (c : Nat) =>
      if getCell b (r : Int) (c : Int) = Cell.empty then some ⟨(r : Int), (c : Int)⟩
      else none

/-- `makeRandomMove(board)`: a random empty cell via the injected source
    (`emptyCells[Math.floor(random * emptyCells.length)]`). -/
def makeRandomMove (ai : AIPlayer) (b : Board) : Option Pos :=
  let emptyCells := findEmptyCells b
  if emptyCells.isEmpty then none
  else emptyCells.get? (ai.random * emptyCells.length).floor.toNat

/-- The eight neighbor offsets scanned by `findPotentialMoves`, in source
    order. -/
def neighborDirs : List (Int × Int) :=
  [(-1, -1), (-1, 0), (-1, 1), (0, -1), (0, 1), (1, -1), (1, 0), (1, 1)]

/-- The raw neighbor stream generated inside `findPotentialMoves`, before
    the JS Set deduplicates it: for each stone in row-major order, its
    empty 8-neighbors in offset order. -/
def potentialRaw (b : Board) : List Pos :=
  (List.range BOARD_SIZE).flatMap fun (r : Nat) =>
    (List.range BOARD_SIZE).flatMap fun (c : Nat) =>
      if getCell b (r : Int) (c : Int) ≠ Cell.empty then
        neighborDirs.filterMap fun d =>
          if isEmptyCell b ((r : Int) + d.1) ((c : Int) + d.2) then
            some ⟨(r : Int) + d.1, (c : Int) + d.2⟩
          else none
      else []

/-- `findPotentialMoves(board)`: empty cells 8-adjacent to some stone, in
    first-insertion order (the JS Set keyed by `"r,c"` strings preserves
    insertion order and deduplicates). -/
def findPotentialMoves (b : Board) : List Pos :=
  (potentialRaw b).foldl (fun acc p => if p ∈ acc then acc else acc ++ [p]) []

/-- The run walk inside `scoreLinesForPlayer`: length of the consecutive
    `player` run from `(x, y)` inclusive along `(dx, dy)`, together with
    the first position past the run. -/
def runWalk (b : Board) (player : Cell) (dx dy : Int) : Nat → Int → Int → Nat × Int × Int
  | 0, x, y => (0, x, y)
  | fuel + 1, x, y =>
    if aiInside x y && decide (getCell b x y = player) then
      let r := runWalk b player dx dy fuel (x + dx) (y + dy)
      (r.1 + 1, r.2)
    else (0, x, y)

/-- `scoreLinesForPlayer(board, player)`: every cell that starts a run
    (its backward neighbor is not the same player) contributes the pattern
    score of the run's length and two end-openness flags. -/
def scoreLinesForPlayer (b : Board) (player : Cell) : Int :=
  ((List.range BOARD_SIZE).map fun (r : Nat) =>
    ((List.range BOARD_SIZE).map fun (c : Nat) =>
      if getCell b (r : Int) (c : Int) = player then
        (winDirections.map fun d =>
          let prevR := (r : Int) - d.1
          let prevC := (c : Int) - d.2
          if aiInside prevR prevC && decide (getCell b prevR prevC = player) then 0
          else
            let w := runWalk b player d.1 d.2 BOARD_SIZE (r : Int) (c : Int)
            scorePattern w.1 (isEmptyCell b prevR prevC) (isEmptyCell b w.2.1 w.2.2)).sum
      else 0).sum).sum

/-- `evaluateBoard(board, perspective)`: own pattern score minus the
    opponent's (`getOpponentColor` has the same body as the engine's
    `getOpponent`). -/
def evaluateBoard (b : Board) (perspective : Cell) : Int :=
  scoreLinesForPlayer b perspective - scoreLinesForPlayer b (getOpponent perspective)

/-- `evaluateMove(board, row, col, player, perspective)`: place, score,
    un-place; the returned board is the board after both writes. -/
def evaluateMove (b : Board) (row col : Int) (player perspective : Cell) : Int × Board :=
  let b1 := setCell b row col player
  (evaluateBoard b1 perspective, setCell b1 row col Cell.empty)

/-- A candidate with its ranking score. -/
structure ScoredMove where
  row : Int
  col : Int
  score : Int
deriving DecidableEq, Repr

/-- The scoring `map` inside `rankCandidates`, threading the board through
    each trial placement. -/
def scoreCandidates (player perspective : Cell) :
    Board → List Pos → List ScoredMove × Board
  | b, [] => ([], b)
  | b, p :: ps =>
    let r := evaluateMove b p.row p.col player perspective
    let rest := scoreCandidates player perspective r.2 ps
    (⟨p.row, p.col, r.1⟩ :: rest.1, rest.2)

/-- Stable insertion (for a right fold) into a list already sorted
    descending by score: the element goes before the first strictly–lower
    score and after scores that tie, since tying elements stood to its
    left in the original list. -/
def insertDescByScore (x : ScoredMove) : List ScoredMove → List ScoredMove
  | [] => [x]
  | y :: ys => if y.score ≤ x.score then x :: y :: ys else y :: insertDescByScore x ys

/-- Stable sort descending by score.  JS `Array.sort` with comparator
    `(a, b) => b.score - a.score` is a stable sort under a total preorder,
    and any two stable sorts agree, so stable insertion sort reproduces
    it exactly. -/
def sortDescByScore (l : List ScoredMove) : List ScoredMove :=
  l.foldr insertDescByScore []

/-- `rankCandidates(board, candidates, player, perspective)`: score, then
    sort descending by score. -/
def rankCandidates (b : Board) (cands : List Pos) (player perspective : Cell) :
    List ScoredMove × Board :=
  let r := scoreCandidates player perspective b cands
  (sortDescByScore r.1, r.2)

/-- `prepareCandidates(board, limit, player, perspective)`: potential
    moves, center fallback when there are none, ranking, and truncation to
    `limit` (a JS falsy limit of 0 would disable truncation). -/
def prepareCandidates (b : Board) (limit : Nat) (player perspective : Cell) :
    List ScoredMove × Board :=
  let potentialMoves := findPotentialMoves b
  let candidates :=
    if potentialMoves.isEmpty then
      [(⟨((BOARD_SIZE / 2 : Nat) : Int), ((BOARD_SIZE / 2 : Nat) : Int)⟩ : Pos)]
    else potentialMoves
  let r := rankCandidates b candidates player perspective
  (if 0 < limit ∧ limit < r.1.length then r.1.take limit else r.1, r.2)

/-- `prepareCandidatesForPlayer(board, player, limit)`: ranked for
    `player`, scored from the AI's own perspective, scores stripped. -/
def prepareCandidatesForPlayer (ai : AIPlayer) (b : Board) (player : Cell) (limit : Nat) :
    List Pos × Board :=
  let r := prepareCandidates b limit player ai.playerColor
  (r.1.map fun m => ⟨m.row, m.col⟩, r.2)

/-- `makeEasyMove(board)`: immediate win, block, then a random pick among
    the top three ranked candidates, then random fallback. -/
def makeEasyMove (ai : AIPlayer) (b : Board) : Option Pos × Board :=
  match findWinningMove b ai.playerColor with
  | some w => (some w, b)
  | none =>
  match findWinningMove b (getOpponent ai.playerColor) with
  | some w => (some w, b)
  | none =>
  let r := prepareCandidates b EASY_CANDIDATE_LIMIT ai.playerColor ai.playerColor
  if r.1.isEmpty = false then
    let selection := r.1.take (min EASY_TOP_CHOICES r.1.length)
    let choice := selection.get? (ai.random * selection.length).floor.toNat
    (choice.map fun c => ⟨c.row, c.col⟩, r.2)
  else
    (makeRandomMove ai r.2, r.2)

/-- The reply-minimization loop inside `makeMediumMove`: the worst (for
    the AI) evaluation over the opponent's ranked replies. -/
def mediumReplyLoop (ai : AIPlayer) (opponent : Cell) :
    Board → List Pos → Ext → Ext × Board
  | b, [], worst => (worst, b)
  | b, reply :: rest, worst =>
    let r := evaluateMove b reply.row reply.col opponent ai.playerColor
    mediumReplyLoop ai opponent r.2 rest (Ext.min worst (Ext.fin r.1))

/-- The candidate loop of `makeMediumMove`: try each candidate, score it
    (immediate win, or worst case over up to six opponent replies), revert
    the trial placement, and keep the strictly best candidate. -/
def mediumLoop (ai : AIPlayer) (opponent : Cell) :
    Board → List ScoredMove → Ext → Option Pos → Option Pos × Board
  | b, [], _, bestMove => (bestMove, b)
  | b, cand :: rest, bestScore, bestMove =>
    let b1 := setCell b cand.row cand.col ai.playerColor
    let sb : Ext × Board :=
      if checkWinningMove b1 cand.row cand.col ai.playerColor then
        (Ext.fin WIN_SCORE, b1)
      else
        let base := evaluateBoard b1 ai.playerColor
        let rr := prepareCandidatesForPlayer ai b1 opponent MEDIUM_RESPONSE_LIMIT
        if rr.1.isEmpty then (Ext.fin base, rr.2)
        else mediumReplyLoop ai opponent rr.2 rr.1 Ext.pinf
    let b2 := setCell sb.2 cand.row cand.col Cell.empty
    if Ext.le sb.1 bestScore then
      mediumLoop ai opponent b2 rest bestScore bestMove
    else
      mediumLoop ai opponent b2 rest sb.1 (some ⟨cand.row, cand.col⟩)

/-- `makeMediumMove(board)` (telemetry absent). -/
def makeMediumMove (ai : AIPlayer) (b : Board) : Option Pos × Board :=
  match findWinningMove b ai.playerColor with
  | some w => (some w, b)
  | none =>
  match findWinningMove b (getOpponent ai.playerColor) with
  | some w => (some w, b)
  | none =>
  let r := prepareCandidates b MEDIUM_CANDIDATE_LIMIT ai.playerColor ai.playerColor
  if r.1.isEmpty then (makeRandomMove ai r.2, r.2)
  else
    let lr := mediumLoop ai (getOpponent ai.playerColor) r.2 r.1 Ext.ninf none
    match lr.1 with
    | some mv => (some mv, lr.2)
    | none => (makeRandomMove ai lr.2, lr.2)

mutual

/-- `minimax(board, depth, maximizingPlayer, alpha, beta)` with the board
    threaded through the search. -/
def minimax (ai : AIPlayer) (b : Board) (depth : Nat) (maximizing : Bool)
    (alpha beta : Ext) : Int × Board :=
  match depth with
  | 0 => (evaluateBoard b ai.playerColor, b)
  | d + 1 =>
    let current := if maximizing then ai.playerColor else getOpponent ai.playerColor
    let cr := prepareCandidatesForPlayer ai b current HARD_CANDIDATE_LIMIT
    if cr.1.isEmpty then (evaluateBoard cr.2 ai.playerColor, cr.2)
    else
      let lr := minimaxLoop ai d maximizing current cr.2 cr.1 alpha beta
        (if maximizing then Ext.ninf else Ext.pinf)
      match lr.1 with
      | Ext.fin v => (v, lr.2)
      | _ => (evaluateBoard lr.2 ai.playerColor, lr.2)
termination_by (depth, 1, 0)

/-- The candidate loop inside `minimax`, including the alpha–beta
    cutoffs (`depth` here is already the decremented depth passed to the
    recursive calls). -/
def minimaxLoop (ai : AIPlayer) (depth : Nat) (maximizing : Bool) (current : Cell) :
    Board → List Pos → Ext → Ext → Ext → Ext × Board
  | b, [], _, _, best => (best, b)
  | b, cand :: rest, alpha, beta, best =>
    let b1 := setCell b cand.row cand.col current
    let sb : Int × Board :=
      if checkWinningMove b1 cand.row cand.col current then
        ((if maximizing then WIN_SCORE else -WIN_SCORE), b1)
      else minimax ai b1 depth (!maximizing) alpha beta
    let b2 := setCell sb.2 cand.row cand.col Cell.empty
    if maximizing then
      let alpha' := Ext.max alpha (Ext.fin sb.1)
      if Ext.le beta alpha' then (Ext.max best (Ext.fin sb.1), b2)
      else minimaxLoop ai depth maximizing current b2 rest alpha' beta
        (Ext.max best (Ext.fin sb.1))
    else
      let beta' := Ext.min beta (Ext.fin sb.1)
      if Ext.le beta' alpha then (Ext.min best (Ext.fin sb.1), b2)
      else minimaxLoop ai depth maximizing current b2 rest alpha beta'
        (Ext.min best (Ext.fin sb.1))
termination_by _ cands _ _ _ => (depth, 2, cands.length)

end

/-- The root candidate loop of `makeHardMove`. -/
def hardRootLoop (ai : AIPlayer) :
    Board → List ScoredMove → Ext → Option Pos → Option Pos × Board
  | b, [], _, bestMove => (bestMove, b)
  | b, cand :: rest, bestScore, bestMove =>
    let b1 := setCell b cand.row cand.col ai.playerColor
    let sb : Int × Board :=
      if checkWinningMove b1 cand.row cand.col ai.playerColor then (WIN_SCORE, b1)
      else minimax ai b1 (HARD_SEARCH_DEPTH - 1) false Ext.ninf Ext.pinf
    let b2 := setCell sb.2 cand.row cand.col Cell.empty
    if Ext.le (Ext.fin sb.1) bestScore then hardRootLoop ai b2 rest bestScore bestMove
    else hardRootLoop ai b2 rest (Ext.fin sb.1) (some ⟨cand.row, cand.col⟩)

/-- `makeHardMove(board)` (telemetry absent). -/
def makeHardMove (ai : AIPlayer) (b : Board) : Option Pos × Board :=
  match findWinningMove b ai.playerColor with
  | some w => (some w, b)
  | none =>
  match findWinningMove b (getOpponent ai.playerColor) with
  | some w => (some w, b)
  | none =>
  let r := prepareCandidates b HARD_CANDIDATE_LIMIT ai.playerColor ai.playerColor
  if r.1.isEmpty then (makeRandomMove ai r.2, r.2)
  else
    let lr := hardRootLoop ai r.2 r.1 Ext.ninf none
    match lr.1 with
    | some mv => (some mv, lr.2)
    | none => makeMediumMove ai lr.2

/-- `makeMove(board)`: shape validation (length of the board and of its
    first row only, as in the source) then difficulty dispatch; the
    `Invalid board state` throw becomes `Except.error`. -/
def makeMove (ai : AIPlayer) (b : Board) : Except String (Option Pos × Board) :=
  if b.length = BOARD_SIZE ∧ (b.getD 0 []).length = BOARD_SIZE then
    match ai.difficulty with
    | Difficulty.easy => Except.ok (makeEasyMove ai b)
    | Difficulty.medium => Except.ok (makeMediumMove ai b)
    | Difficulty.hard => Except.ok (makeHardMove ai b)
  else Except.error "Invalid board state"

/-! ## Claim C9: the concrete winning-completion scenario -/

/-- The C9 scenario: White at `(5,5)`–`(5,8)`, Black at `(5,4)` on an
    otherwise empty 15×15 board; `(5,9)` is the only winning completion
    for White. -/
def c9Board : Board :=
  setCell (setCell (setCell (setCell (setCell (createEmptyBoard 15)
    5 5 Cell.white) 5 6 Cell.white) 5 7 Cell.white) 5 8 Cell.white) 5 4 Cell.black

/-- **C9.** On the scenario board, the AI playing White with a
    zero-returning random source selects `(5, 9)` at every difficulty (and
    leaves the board unchanged): each tier's immediate-win check finds the
    completion before any deeper computation runs. -/
theorem ai_selects_winning_completion :
    makeMove ⟨Difficulty.easy, Cell.white, 0⟩ c9Board = Except.ok (some ⟨5, 9⟩, c9Board) ∧
    makeMove ⟨Difficulty.medium, Cell.white, 0⟩ c9Board = Except.ok (some ⟨5, 9⟩, c9Board) ∧
    makeMove ⟨Difficulty.hard, Cell.white, 0⟩ c9Board = Except.ok (some ⟨5, 9⟩, c9Board) := by
  refine ⟨by rfl, by rfl, by rfl⟩

/-! ## Claim C10: full board makes every tier return the occupied center -/

/-- A completely full, well-shaped 15×15 board. -/
def boardFull (b : Board) : Prop :=
  b.length = BOARD_SIZE ∧ (∀ row ∈ b, row.length = BOARD_SIZE) ∧
    ∀ row ∈ b, ∀ cell ∈ row, cell ≠ Cell.empty

/-- On a full board every in-bounds cell is occupied. -/
theorem boardFull_getCell (b : Board) (hb : boardFull b) (r c : Int)
    (h : aiInside r c = true) : getCell b r c ≠ Cell.empty := by
  obtain ⟨hlen, hrows, hcells⟩ := hb
  unfold aiInside isInside at h
  simp only [Bool.and_eq_true, decide_eq_true_eq] at h
  obtain ⟨⟨⟨hr0, hrn⟩, hc0⟩, hcn⟩ := h
  have hrn' : r < (15 : Int) := by simpa [BOARD_SIZE] using hrn
  have hcn' : c < (15 : Int) := by simpa [BOARD_SIZE] using hcn
  have hrlt : r.toNat < b.length := by rw [hlen]; unfold BOARD_SIZE; omega
  have hrow : b.getD r.toNat [] = b[r.toNat] := List.getD_eq_getElem b [] hrlt
  have hrowmem : b[r.toNat] ∈ b := List.getElem_mem hrlt
  have hclt : c.toNat < (b[r.toNat]).length := by
    rw [hrows _ hrowmem]; unfold BOARD_SIZE; omega
  have hcell : (b[r.toNat]).getD c.toNat Cell.empty = (b[r.toNat])[c.toNat] :=
    List.getD_eq_getElem _ _ hclt
  unfold getCell
  rw [if_pos ⟨hr0, hc0⟩, hrow, hcell]
  exact hcells _ hrowmem _ (List.getElem_mem hclt)

/-- Indices drawn from `range BOARD_SIZE` are inside the AI's bounds. -/
theorem aiInside_of_range (r c : Nat) (hr : r < BOARD_SIZE) (hc : c < BOARD_SIZE) :
    aiInside (r : Int) (c : Int) = true := by
  unfold aiInside isInside
  simp only [Bool.and_eq_true, decide_eq_true_eq]
  exact ⟨⟨⟨Int.natCast_nonneg r, by exact_mod_cast hr⟩, Int.natCast_nonneg c⟩,
    by exact_mod_cast hc⟩

/-- On a full board there is no winning move for anyone: the scan never
    meets an empty cell. -/
theorem findWinningMove_full (b : Board) (hb : boardFull b) (player : Cell) :
    findWinningMove b player = none := by
  unfold findWinningMove
  rw [List.findSome?_eq_none_iff]
  intro r hr
  rw [List.findSome?_eq_none_iff]
  intro c hc
  rw [List.mem_range] at hr hc
  have hocc := boardFull_getCell b hb r c (aiInside_of_range r c hr hc)
  rw [if_neg]
  intro hcontra
  exact hocc hcontra.1

/-- On a full board the raw neighbor stream is empty. -/
theorem potentialRaw_full (b : Board) (hb : boardFull b) :
    potentialRaw b = [] := by
  unfold potentialRaw
  rw [List.flatMap_eq_nil_iff]
  intro r _
  rw [List.flatMap_eq_nil_iff]
  intro c _
  have hempties : (neighborDirs.filterMap fun d =>
      if isEmptyCell b ((r : Int) + d.1) ((c : Int) + d.2) then
        some (⟨(r : Int) + d.1, (c : Int) + d.2⟩ : Pos)
      else none) = [] := by
    rw [List.filterMap_eq_nil_iff]
    intro d _
    rw [if_neg]
    intro habs
    unfold isEmptyCell at habs
    rw [Bool.and_eq_true] at habs
    exact boardFull_getCell b hb _ _ habs.1 (of_decide_eq_true habs.2)
  by_cases hocc : getCell b (r : Int) (c : Int) ≠ Cell.empty
  · rw [if_pos hocc]; exact hempties
  · rw [if_neg hocc]

/-- On a full board there are no potential moves: no neighbor of any
    stone is empty. -/
theorem findPotentialMoves_full (b : Board) (hb : boardFull b) :
    findPotentialMoves b = [] := by
  unfold findPotentialMoves
  rw [potentialRaw_full b hb]
  rfl

/-- Writing to the same cell twice keeps only the second write. -/
theorem setCell_setCell (b : Board) (r c : Int) (v w : Cell) :
    setCell (setCell b r c v) r c w = setCell b r c w := by
  unfold setCell
  by_cases h : 0 ≤ r ∧ 0 ≤ c
  · simp only [if_pos h]
    by_cases hlt : r.toNat < b.length
    · have hgd : (b.set r.toNat ((b.getD r.toNat []).set c.toNat v)).getD r.toNat [] =
          (b.getD r.toNat []).set c.toNat v := by
        rw [List.getD_eq_getElem _ [] (by rw [List.length_set]; exact hlt)]
        exact List.getElem_set_self (by rw [List.length_set]; exact hlt)
      rw [hgd, List.set_set, List.set_set]
    · have hid : b.set r.toNat ((b.getD r.toNat []).set c.toNat v) = b :=
        List.set_eq_of_length_le (by omega)
      rw [hid]
  · simp only [if_neg h]

/-- A full board stays full when an occupied value is written. -/
theorem boardFull_setCell (b : Board) (hb : boardFull b) (r c : Int) (v : Cell)
    (hv : v ≠ Cell.empty) : boardFull (setCell b r c v) := by
  obtain ⟨hlen, hrows, hcells⟩ := hb
  unfold setCell
  by_cases h : 0 ≤ r ∧ 0 ≤ c
  · rw [if_pos h]
    by_cases hlt : r.toNat < b.length
    · have hgd : b.getD r.toNat [] = b[r.toNat] := List.getD_eq_getElem b [] hlt
      refine ⟨by rw [List.length_set]; exact hlen, ?_, ?_⟩
      · intro row hrow
        rcases List.mem_or_eq_of_mem_set hrow with hmem | rfl
        · exact hrows row hmem
        · rw [List.length_set, hgd]
          exact hrows _ (List.getElem_mem hlt)
      · intro row hrow cell hcell
        rcases List.mem_or_eq_of_mem_set hrow with hmem | rfl
        · exact hcells row hmem cell hcell
        · rw [hgd] at hcell
          rcases List.mem_or_eq_of_mem_set hcell with hmem2 | rfl
          · exact hcells _ (List.getElem_mem hlt) _ hmem2
          · exact hv
    · rw [List.set_eq_of_length_le (by omega)]
      exact ⟨hlen, hrows, hcells⟩
  · simp only [if_neg h]; exact ⟨hlen, hrows, hcells⟩

/-- A finite extended number never sorts below `-Infinity`. -/
theorem ext_le_fin_ninf (n : Int) : Ext.le (Ext.fin n) Ext.ninf = false := rfl

/-- `Ext.min` with a finite argument cannot produce `-Infinity` unless fed
    one. -/
theorem ext_min_ne_ninf (a : Ext) (n : Int) (ha : a ≠ Ext.ninf) :
    Ext.min a (Ext.fin n) ≠ Ext.ninf := by
  unfold Ext.min
  by_cases h : Ext.le a (Ext.fin n) = true
  · rw [if_pos h]; exact ha
  · rw [if_neg h]; intro hx; cases hx

/-- Only `-Infinity` compares `≤ -Infinity`. -/
theorem ext_le_ninf (a : Ext) (ha : a ≠ Ext.ninf) : Ext.le a Ext.ninf = false := by
  cases a with
  | ninf => exact absurd rfl ha
  | fin n => rfl
  | pinf => rfl

/-- The medium reply loop never produces `-Infinity` from a non-`-Infinity`
    accumulator. -/
theorem mediumReplyLoop_ne_ninf (ai : AIPlayer) (opp : Cell) :
    ∀ (l : List Pos) (b : Board) (w : Ext), w ≠ Ext.ninf →
      (mediumReplyLoop ai opp b l w).1 ≠ Ext.ninf := by
  intro l
  induction l with
  | nil => intro b w hw; exact hw
  | cons x xs ih =>
    intro b w hw
    unfold mediumReplyLoop
    exact ih _ _ (ext_min_ne_ninf w _ hw)

/-- On a full board, candidate preparation falls back to the (occupied)
    center `(7, 7)`: the center is ranked as the only candidate, and the
    trial placement made while ranking it leaves the board with the center
    cell cleared — the stone that was there is lost. -/
theorem prepareCandidates_full (b : Board) (hb : boardFull b) (limit : Nat)
    (player persp : Cell) :
    prepareCandidates b limit player persp =
      ([⟨7, 7, evaluateBoard (setCell b 7 7 player) persp⟩], setCell b 7 7 Cell.empty) := by
  unfold prepareCandidates
  rw [findPotentialMoves_full b hb]
  have hc : ((BOARD_SIZE / 2 : Nat) : Int) = 7 := by norm_num [BOARD_SIZE]
  simp only [List.isEmpty_nil, eq_self_iff_true, ite_true, hc]
  unfold rankCandidates
  simp only [scoreCandidates, evaluateMove, sortDescByScore, List.foldr,
    insertDescByScore, setCell_setCell, List.length_cons, List.length_nil]
  rw [if_neg (by omega : ¬(0 < limit ∧ limit < 1))]

/-- On a full board the easy tier selects the occupied center. -/
theorem makeEasyMove_full (ai : AIPlayer) (b : Board) (hb : boardFull b)
    (hr0 : 0 ≤ ai.random) (hr1 : ai.random < 1) :
    makeEasyMove ai b = (some ⟨7, 7⟩, setCell b 7 7 Cell.empty) := by
  unfold makeEasyMove
  rw [findWinningMove_full b hb, findWinningMove_full b hb,
    prepareCandidates_full b hb EASY_CANDIDATE_LIMIT ai.playerColor ai.playerColor]
  have hfloor : (ai.random * ((1 : Nat) : ℚ)).floor.toNat = 0 := by
    have h1 : ai.random * ((1 : Nat) : ℚ) = ai.random := by push_cast; ring
    rw [h1]
    have h2 : (ai.random).floor = ⌊ai.random⌋ := rfl
    rw [h2, Int.floor_eq_zero_iff.mpr ⟨hr0, hr1⟩]
    rfl
  simp only [List.isEmpty_cons, eq_self_iff_true, ite_true]
  have htake : ∀ x : ScoredMove, List.take (EASY_TOP_CHOICES ⊓ 1) [x] = [x] :=
    fun x => rfl
  simp only [htake, List.length_singleton, hfloor]
  rfl

/-- On a full board the medium tier also selects the occupied center: its
    single candidate is the center, whose worst-case reply (again the
    center, via the same fallback) yields some finite score, which beats
    the initial `-Infinity`. -/
theorem makeMediumMove_full (ai : AIPlayer) (b : Board) (hb : boardFull b)
    (hp : ai.playerColor ≠ Cell.empty) :
    ∃ b', makeMediumMove ai b = (some ⟨7, 7⟩, b') := by
  have hb1 : boardFull (setCell b 7 7 ai.playerColor) := boardFull_setCell b hb 7 7 _ hp
  unfold makeMediumMove
  rw [findWinningMove_full b hb, findWinningMove_full b hb,
    prepareCandidates_full b hb MEDIUM_CANDIDATE_LIMIT ai.playerColor ai.playerColor]
  simp only [List.isEmpty_cons, Bool.false_eq_true, if_false]
  unfold mediumLoop
  rw [setCell_setCell]
  by_cases hcw : checkWinningMove (setCell b 7 7 ai.playerColor) 7 7 ai.playerColor = true
  · simp only [hcw, if_true, ext_le_fin_ninf, Bool.false_eq_true, if_false]
    exact ⟨_, rfl⟩
  · simp only [hcw, Bool.false_eq_true, if_false]
    unfold prepareCandidatesForPlayer
    rw [prepareCandidates_full _ hb1 MEDIUM_RESPONSE_LIMIT (getOpponent ai.playerColor)
      ai.playerColor]
    simp only [List.map_cons, List.map_nil, List.isEmpty_cons, Bool.false_eq_true, if_false]
    have hne := mediumReplyLoop_ne_ninf ai (getOpponent ai.playerColor)
      [⟨7, 7⟩] (setCell (setCell b 7 7 ai.playerColor) 7 7 Cell.empty) Ext.pinf
      (by intro h; cases h)
    rw [ext_le_ninf _ hne]
    simp only [Bool.false_eq_true, if_false]
    exact ⟨_, rfl⟩

/-- On a full board the hard tier selects the occupied center: whatever
    the minimax search of its single center candidate returns is a finite
    score, which beats the initial `-Infinity`. -/
theorem makeHardMove_full (ai : AIPlayer) (b : Board) (hb : boardFull b) :
    ∃ b', makeHardMove ai b = (some ⟨7, 7⟩, b') := by
  unfold makeHardMove
  rw [findWinningMove_full b hb, findWinningMove_full b hb,
    prepareCandidates_full b hb HARD_CANDIDATE_LIMIT ai.playerColor ai.playerColor]
  simp only [List.isEmpty_cons, Bool.false_eq_true, if_false]
  unfold hardRootLoop
  rw [setCell_setCell]
  by_cases hcw : checkWinningMove (setCell b 7 7 ai.playerColor) 7 7 ai.playerColor = true
  · simp only [hcw, if_true, ext_le_fin_ninf, Bool.false_eq_true, if_false]
    exact ⟨_, rfl⟩
  · simp only [hcw, Bool.false_eq_true, if_false, ext_le_fin_ninf]
    exact ⟨_, rfl⟩

/-- **C10.** On every completely full 15×15 board, for every player color
    and every in-contract value of the injected random source, `makeMove`
    at each of the three difficulties returns the center `{row: 7, col: 7}`
    — an already-occupied cell — rather than `null`: the candidate
    fallback proposes the center whenever no empty cell neighbors a stone,
    without checking that the center itself is empty. -/
theorem ai_full_board_returns_occupied_center (ai : AIPlayer) (b : Board)
    (hb : boardFull b) (hp : ai.playerColor ≠ Cell.empty)
    (hr0 : 0 ≤ ai.random) (hr1 : ai.random < 1) :
    (∃ b', makeMove ai b = Except.ok (some ⟨7, 7⟩, b')) ∧
    getCell b 7 7 ≠ Cell.empty := by
  have hshape : b.length = BOARD_SIZE ∧ (b.getD 0 []).length = BOARD_SIZE := by
    obtain ⟨hlen, hrows, _⟩ := hb
    refine ⟨hlen, ?_⟩
    have h0 : 0 < b.length := by rw [hlen]; norm_num [BOARD_SIZE]
    rw [List.getD_eq_getElem b [] h0]
    exact hrows _ (List.getElem_mem h0)
  constructor
  · unfold makeMove
    rw [if_pos hshape]
    cases hd : ai.difficulty with
    | easy => exact ⟨_, by rw [makeEasyMove_full ai b hb hr0 hr1]⟩
    | medium =>
      obtain ⟨b', hm⟩ := makeMediumMove_full ai b hb hp
      exact ⟨b', by rw [hm]⟩
    | hard =>
      obtain ⟨b', hm⟩ := makeHardMove_full ai b hb
      exact ⟨b', by rw [hm]⟩
  · exact boardFull_getCell b hb 7 7 (by decide)

/-- A full board of black stones for the C10 witness. -/
def fullBlackBoard : Board := List.replicate 15 (List.replicate 15 Cell.black)

/-- Witness for C10 at a concrete input: the easy white AI with a zero
    random source on the all-black board. -/
theorem ai_full_board_witness :
    (∃ b', makeMove ⟨Difficulty.easy, Cell.white, 0⟩ fullBlackBoard =
      Except.ok (some ⟨7, 7⟩, b')) ∧
    getCell fullBlackBoard 7 7 ≠ Cell.empty :=
  ai_full_board_returns_occupied_center ⟨Difficulty.easy, Cell.white, 0⟩ fullBlackBoard
    ⟨by decide, by decide, by decide⟩ (by decide) (by norm_num) (by norm_num)


theorem list_set_self (l : List Cell) (i : Nat) : l.set i (l.getD i Cell.empty) = l := by
  by_cases h : i < l.length
  · rw [List.getD_eq_getElem l Cell.empty h]
    apply List.ext_getElem
    · simp
    · intro n h1 h2
      rcases Classical.em (n = i) with rfl | hne
      · simp [List.getElem_set_self]
      · rw [List.getElem_set_ne (by omega)]
  · exact List.set_eq_of_length_le (by omega)

theorem board_set_self (b : Board) (i : Nat) : b.set i (b.getD i []) = b := by
  by_cases h : i < b.length
  · rw [List.getD_eq_getElem b [] h]
    apply List.ext_getElem
    · simp
    · intro n h1 h2
      rcases Classical.em (n = i) with rfl | hne
      · simp [List.getElem_set_self]
      · rw [List.getElem_set_ne (by omega)]
  · exact List.set_eq_of_length_le (by omega)

/-- Un-placing a stone from a previously empty cell restores the board. -/
theorem setCell_restore (b : Board) (r c : Int) (v : Cell)
    (h : getCell b r c = Cell.empty) :
    setCell (setCell b r c v) r c Cell.empty = b := by
  rw [setCell_setCell]
  unfold setCell
  unfold getCell at h
  by_cases h0 : 0 ≤ r ∧ 0 ≤ c
  · rw [if_pos h0]
    rw [if_pos h0] at h
    rw [← h, list_set_self, board_set_self]
  · rw [if_neg h0]

/-- Reads at a different cell are unaffected by a write. -/
theorem getCell_setCell_ne (b : Board) (r c r' c' : Int) (v : Cell)
    (h : r ≠ r' ∨ c ≠ c') :
    getCell (setCell b r c v) r' c' = getCell b r' c' := by
  unfold getCell setCell
  by_cases h0 : 0 ≤ r ∧ 0 ≤ c
  · rw [if_pos h0]
    by_cases h1 : 0 ≤ r' ∧ 0 ≤ c'
    · rw [if_pos h1, if_pos h1]
      by_cases hrr : r.toNat = r'.toNat
      · have hcc : c.toNat ≠ c'.toNat := by
          rcases h with hr | hc
          · exfalso; omega
          · omega
        by_cases hlt : r.toNat < b.length
        · have hgd : (b.set r.toNat ((b.getD r.toNat []).set c.toNat v)).getD r'.toNat [] =
              (b.getD r.toNat []).set c.toNat v := by
            rw [← hrr, List.getD_eq_getElem _ [] (by rw [List.length_set]; exact hlt)]
            exact List.getElem_set_self (by rw [List.length_set]; exact hlt)
          rw [hgd, ← hrr]
          by_cases hclt : c'.toNat < (b.getD r.toNat []).length
          · rw [List.getD_eq_getElem _ Cell.empty (by rw [List.length_set]; exact hclt),
              List.getD_eq_getElem _ Cell.empty hclt]
            exact List.getElem_set_ne hcc _
          · rw [List.getD_eq_default ((b.getD r.toNat []).set c.toNat v) Cell.empty
                (by rw [List.length_set]; omega),
              List.getD_eq_default (b.getD r.toNat []) Cell.empty (by omega)]
        · rw [List.set_eq_of_length_le (by omega)]
      · have hgd : (b.set r.toNat ((b.getD r.toNat []).set c.toNat v)).getD r'.toNat [] =
            b.getD r'.toNat [] := by
          by_cases hlt' : r'.toNat < b.length
          · rw [List.getD_eq_getElem _ [] (by rw [List.length_set]; exact hlt'),
              List.getD_eq_getElem _ [] hlt']
            exact List.getElem_set_ne hrr _
          · rw [List.getD_eq_default (b.set r.toNat ((b.getD r.toNat []).set c.toNat v)) []
                (by rw [List.length_set]; omega),
              List.getD_eq_default b [] (by omega)]
        rw [hgd]
    · rw [if_neg h1, if_neg h1]
  · rw [if_neg h0]
/-- At least `k` distinct empty in-bounds cells exist on the board. -/
def emptyFree (b : Board) (k : Nat) : Prop :=
  ∃ l : List Pos, l.Nodup ∧ l.length = k ∧ ∀ p ∈ l, isEmptyCell b p.row p.col = true

theorem emptyFree_mono (b : Board) (j k : Nat) (hjk : j ≤ k) (h : emptyFree b k) :
    emptyFree b j := by
  obtain ⟨l, hnd, hlen, hall⟩ := h
  exact ⟨l.take j, hnd.sublist (List.take_sublist j l),
    by rw [List.length_take]; omega,
    fun p hp => hall p (List.take_subset j l hp)⟩

/-- Placing a stone on an empty cell keeps at least `k` of `k + 1` spare
    empty cells empty. -/
theorem emptyFree_setCell (b : Board) (k : Nat) (q : Pos) (v : Cell)
    (h : emptyFree b (k + 1)) :
    emptyFree (setCell b q.row q.col v) k := by
  obtain ⟨l, hnd, hlen, hall⟩ := h
  refine ⟨(l.erase q).take k, ((hnd.erase q).sublist (List.take_sublist _ _)), ?_, ?_⟩
  · rw [List.length_take]
    by_cases hq : q ∈ l
    · rw [List.length_erase_of_mem hq, hlen]
      omega
    · rw [List.erase_of_not_mem hq, hlen]
      omega
  · intro p hp
    have hpl : p ∈ l.erase q := List.take_subset _ _ hp
    have hpmem : p ∈ l := List.mem_of_mem_erase hpl
    have hpq : p ≠ q := by
      intro rfl1
      subst rfl1
      by_cases hq : p ∈ l
      · exact (List.Nodup.not_mem_erase hnd) hpl
      · exact hq hpmem
    have hcoord : q.row ≠ p.row ∨ q.col ≠ p.col := by
      by_contra hcon
      push_neg at hcon
      exact hpq (by cases p; cases q; simp_all)
    have hemp := hall p hpmem
    unfold isEmptyCell at hemp ⊢
    rw [getCell_setCell_ne b q.row q.col p.row p.col v hcoord]
    exact hemp

/-- Every raw potential move is an empty in-bounds cell. -/
theorem potentialRaw_empty (b : Board) (p : Pos) (hp : p ∈ potentialRaw b) :
    isEmptyCell b p.row p.col = true := by
  unfold potentialRaw at hp
  rw [List.mem_flatMap] at hp
  obtain ⟨r, _, hp⟩ := hp
  rw [List.mem_flatMap] at hp
  obtain ⟨c, _, hp⟩ := hp
  by_cases hocc : getCell b (r : Int) (c : Int) ≠ Cell.empty
  · rw [if_pos hocc] at hp
    rw [List.mem_filterMap] at hp
    obtain ⟨d, _, hd⟩ := hp
    by_cases he : isEmptyCell b ((r : Int) + d.1) ((c : Int) + d.2) = true
    · rw [if_pos he] at hd
      cases hd
      exact he
    · rw [if_neg he] at hd
      cases hd
  · rw [if_neg hocc] at hp
    cases hp

/-- Members of the dedup fold come from the accumulator or the stream. -/
theorem mem_dedup_fold (l : List Pos) :
    ∀ (acc : List Pos) (p : Pos),
      p ∈ l.foldl (fun acc p => if p ∈ acc then acc else acc ++ [p]) acc →
      p ∈ acc ∨ p ∈ l := by
  induction l with
  | nil => intro acc p hp; exact Or.inl hp
  | cons x xs ih =>
    intro acc p hp
    simp only [List.foldl_cons] at hp
    by_cases hx : x ∈ acc
    · rw [if_pos hx] at hp
      rcases ih acc p hp with h | h
      · exact Or.inl h
      · exact Or.inr (List.mem_cons_of_mem x h)
    · rw [if_neg hx] at hp
      rcases ih (acc ++ [x]) p hp with h | h
      · rcases List.mem_append.mp h with h2 | h2
        · exact Or.inl h2
        · rcases List.mem_singleton.mp h2 with rfl
          exact Or.inr (by simp)
      · exact Or.inr (List.mem_cons_of_mem x h)

/-- Every potential move is an empty in-bounds cell. -/
theorem findPotentialMoves_empty (b : Board) (p : Pos) (hp : p ∈ findPotentialMoves b) :
    isEmptyCell b p.row p.col = true := by
  unfold findPotentialMoves at hp
  rcases mem_dedup_fold (potentialRaw b) [] p hp with h | h
  · cases h
  · exact potentialRaw_empty b p h
/-- Unpack the AI bounds check. -/
theorem aiInside_bounds (r c : Int) (h : aiInside r c = true) :
    0 ≤ r ∧ r < 15 ∧ 0 ≤ c ∧ c < 15 := by
  unfold aiInside isInside BOARD_SIZE at h
  simp only [Bool.and_eq_true, decide_eq_true_eq] at h
  exact ⟨h.1.1.1, by exact_mod_cast h.1.1.2, h.1.2, by exact_mod_cast h.2⟩

/-- Pack the AI bounds check. -/
theorem aiInside_intro (r c : Int) (h : 0 ≤ r ∧ r < 15 ∧ 0 ≤ c ∧ c < 15) :
    aiInside r c = true := by
  unfold aiInside isInside BOARD_SIZE
  simp only [Bool.and_eq_true, decide_eq_true_eq]
  refine ⟨⟨⟨h.1, by exact_mod_cast h.2.1⟩, h.2.2.1⟩, by exact_mod_cast h.2.2.2⟩

/-- If an in-bounds stone and an in-bounds empty cell both exist, some
    stone has an empty 8-neighbor: walk a straight path from the stone
    toward the empty cell and stop at the first stone-to-empty crossing. -/
theorem stone_with_empty_neighbor (b : Board) :
    ∀ (n : Nat) (sr sc tr tc : Int),
      aiInside sr sc = true → aiInside tr tc = true →
      (sr - tr).natAbs + (sc - tc).natAbs = n →
      getCell b sr sc ≠ Cell.empty → getCell b tr tc = Cell.empty →
      ∃ (pr pc : Int) (d : Int × Int), aiInside pr pc = true ∧
        getCell b pr pc ≠ Cell.empty ∧ d ∈ neighborDirs ∧
        isEmptyCell b (pr + d.1) (pc + d.2) = true := by
  intro n
  induction n using Nat.strong_induction_on with
  | _ n ih =>
    intro sr sc tr tc hs ht hn hstone hempty
    obtain ⟨hs1, hs2, hs3, hs4⟩ := aiInside_bounds sr sc hs
    obtain ⟨ht1, ht2, ht3, ht4⟩ := aiInside_bounds tr tc ht
    rcases lt_trichotomy sr tr with hlt | heq | hgt
    · have hnext : aiInside (sr + 1) sc = true := aiInside_intro _ _ (by omega)
      by_cases hne : getCell b (sr + 1) sc = Cell.empty
      · refine ⟨sr, sc, (1, 0), hs, hstone, by decide, ?_⟩
        unfold isEmptyCell
        have e1 : sr + ((1 : Int), (0 : Int)).1 = sr + 1 := by norm_num
        have e2 : sc + ((1 : Int), (0 : Int)).2 = sc := by norm_num
        rw [e1, e2, hnext, hne]
        rfl
      · exact ih ((sr + 1 - tr).natAbs + (sc - tc).natAbs) (by omega)
          (sr + 1) sc tr tc hnext ht rfl hne hempty
    · rcases lt_trichotomy sc tc with hclt | hceq | hcgt
      · have hnext : aiInside sr (sc + 1) = true := aiInside_intro _ _ (by omega)
        by_cases hne : getCell b sr (sc + 1) = Cell.empty
        · refine ⟨sr, sc, (0, 1), hs, hstone, by decide, ?_⟩
          unfold isEmptyCell
          have e1 : sr + ((0 : Int), (1 : Int)).1 = sr := by norm_num
          have e2 : sc + ((0 : Int), (1 : Int)).2 = sc + 1 := by norm_num
          rw [e1, e2, hnext, hne]
          rfl
        · exact ih ((sr - tr).natAbs + (sc + 1 - tc).natAbs) (by omega)
            sr (sc + 1) tr tc hnext ht rfl hne hempty
      · exfalso
        subst heq hceq
        exact hstone hempty
      · have hnext : aiInside sr (sc - 1) = true := aiInside_intro _ _ (by omega)
        by_cases hne : getCell b sr (sc - 1) = Cell.empty
        · refine ⟨sr, sc, (0, -1), hs, hstone, by decide, ?_⟩
          unfold isEmptyCell
          have e1 : sr + ((0 : Int), (-1 : Int)).1 = sr := by norm_num
          have e2 : sc + ((0 : Int), (-1 : Int)).2 = sc - 1 := by ring
          rw [e1, e2, hnext, hne]
          rfl
        · exact ih ((sr - tr).natAbs + (sc - 1 - tc).natAbs) (by omega)
            sr (sc - 1) tr tc hnext ht rfl hne hempty
    · have hnext : aiInside (sr - 1) sc = true := aiInside_intro _ _ (by omega)
      by_cases hne : getCell b (sr - 1) sc = Cell.empty
      · refine ⟨sr, sc, (-1, 0), hs, hstone, by decide, ?_⟩
        unfold isEmptyCell
        have e1 : sr + ((-1 : Int), (0 : Int)).1 = sr - 1 := by ring
        have e2 : sc + ((-1 : Int), (0 : Int)).2 = sc := by norm_num
        rw [e1, e2, hnext, hne]
        rfl
      · exact ih ((sr - 1 - tr).natAbs + (sc - tc).natAbs) (by omega)
          (sr - 1) sc tr tc hnext ht rfl hne hempty
/-- A stone with an empty neighbor contributes to the raw potential list. -/
theorem potentialRaw_ne_nil (b : Board) (pr pc : Int) (d : Int × Int)
    (hin : aiInside pr pc = true) (hstone : getCell b pr pc ≠ Cell.empty)
    (hd : d ∈ neighborDirs) (hemp : isEmptyCell b (pr + d.1) (pc + d.2) = true) :
    potentialRaw b ≠ [] := by
  obtain ⟨h1, h2, h3, h4⟩ := aiInside_bounds pr pc hin
  have hprn : ((pr.toNat : Nat) : Int) = pr := Int.toNat_of_nonneg h1
  have hpcn : ((pc.toNat : Nat) : Int) = pc := Int.toNat_of_nonneg h3
  intro hnil
  have hmem : (⟨pr + d.1, pc + d.2⟩ : Pos) ∈ potentialRaw b := by
    unfold potentialRaw
    rw [List.mem_flatMap]
    refine ⟨pr.toNat, by rw [List.mem_range]; unfold BOARD_SIZE; omega, ?_⟩
    rw [List.mem_flatMap]
    refine ⟨pc.toNat, by rw [List.mem_range]; unfold BOARD_SIZE; omega, ?_⟩
    rw [hprn, hpcn, if_pos hstone, List.mem_filterMap]
    exact ⟨d, hd, by rw [if_pos hemp]⟩
  rw [hnil] at hmem
  cases hmem

/-- The dedup fold keeps every accumulator element. -/
theorem dedup_fold_acc_subset (l : List Pos) :
    ∀ (acc : List Pos) (p : Pos), p ∈ acc →
      p ∈ l.foldl (fun acc p => if p ∈ acc then acc else acc ++ [p]) acc := by
  induction l with
  | nil => intro acc p hp; exact hp
  | cons x xs ih =>
    intro acc p hp
    simp only [List.foldl_cons]
    by_cases hx : x ∈ acc
    · rw [if_pos hx]; exact ih acc p hp
    · rw [if_neg hx]; exact ih (acc ++ [x]) p (List.mem_append_left _ hp)

/-- Deduplicating a nonempty stream yields a nonempty list. -/
theorem findPotentialMoves_ne_nil (b : Board) (hraw : potentialRaw b ≠ []) :
    findPotentialMoves b ≠ [] := by
  unfold findPotentialMoves
  obtain ⟨x, xs, hx⟩ : ∃ x xs, potentialRaw b = x :: xs := by
    cases h : potentialRaw b with
    | nil => exact absurd h hraw
    | cons x xs => exact ⟨x, xs, rfl⟩
  rw [hx]
  simp only [List.foldl_cons]
  intro hnil
  have hacc : (if x ∈ ([] : List Pos) then ([] : List Pos) else [] ++ [x]) = [x] := by simp
  rw [hacc] at hnil
  have hsub := dedup_fold_acc_subset xs [x] x (List.mem_singleton_self x)
  rw [hnil] at hsub
  cases hsub

/-- Members of a stable insertion are the new element or old members. -/
theorem mem_insertDescByScore (x : ScoredMove) :
    ∀ (l : List ScoredMove) (m : ScoredMove), m ∈ insertDescByScore x l → m = x ∨ m ∈ l := by
  intro l
  induction l with
  | nil =>
    intro m hm
    rcases List.mem_singleton.mp hm with rfl
    exact Or.inl rfl
  | cons y ys ih =>
    intro m hm
    unfold insertDescByScore at hm
    by_cases hc : y.score ≤ x.score
    · rw [if_pos hc] at hm
      rcases List.mem_cons.mp hm with rfl | hm2
      · exact Or.inl rfl
      · exact Or.inr hm2
    · rw [if_neg hc] at hm
      rcases List.mem_cons.mp hm with rfl | hm2
      · exact Or.inr (List.mem_cons_self _ _)
      · rcases ih m hm2 with h | h
        · exact Or.inl h
        · exact Or.inr (List.mem_cons_of_mem y h)

/-- Members of the stable sort are members of the input. -/
theorem mem_sortDescByScore :
    ∀ (l : List ScoredMove) (m : ScoredMove), m ∈ sortDescByScore l → m ∈ l := by
  intro l
  induction l with
  | nil => intro m hm; exact hm
  | cons x xs ih =>
    intro m hm
    unfold sortDescByScore at hm
    simp only [List.foldr_cons] at hm
    rcases mem_insertDescByScore x _ m hm with rfl | hm2
    · exact List.mem_cons_self _ _
    · exact List.mem_cons_of_mem x (ih m hm2)

/-- Scoring candidates that sit on empty cells restores the board, and
    every scored move corresponds to a candidate. -/
theorem scoreCandidates_restore (player persp : Cell) :
    ∀ (cands : List Pos) (b : Board),
      (∀ p ∈ cands, getCell b p.row p.col = Cell.empty) →
      (scoreCandidates player persp b cands).2 = b ∧
      ∀ m ∈ (scoreCandidates player persp b cands).1,
        ∃ p ∈ cands, m.row = p.row ∧ m.col = p.col := by
  intro cands
  induction cands with
  | nil => intro b _; exact ⟨rfl, fun m hm => absurd hm (List.not_mem_nil m)⟩
  | cons p ps ih =>
    intro b hall
    have hrestore : setCell (setCell b p.row p.col player) p.row p.col Cell.empty = b :=
      setCell_restore b p.row p.col player (hall p (List.mem_cons_self p ps))
    simp only [scoreCandidates, evaluateMove]
    rw [hrestore]
    obtain ⟨hb, hmem⟩ := ih b (fun q hq => hall q (List.mem_cons_of_mem p hq))
    refine ⟨hb, ?_⟩
    intro m hm
    rcases List.mem_cons.mp hm with rfl | hm2
    · exact ⟨p, List.mem_cons_self p ps, rfl, rfl⟩
    · obtain ⟨q, hq, he⟩ := hmem m hm2
      exact ⟨q, List.mem_cons_of_mem p hq, he⟩

/-- With at least one empty cell on the board, candidate preparation
    restores the board and every prepared candidate is an empty in-bounds
    cell (including the center fallback, which is only reached when the
    board has no stones at all). -/
theorem prepareCandidates_restore (b : Board) (limit : Nat) (player persp : Cell)
    (hfree : emptyFree b 1) :
    (prepareCandidates b limit player persp).2 = b ∧
    ∀ m ∈ (prepareCandidates b limit player persp).1,
      isEmptyCell b m.row m.col = true := by
  obtain ⟨lfree, _, hlen1, hallfree⟩ := hfree
  obtain ⟨t, ht⟩ : ∃ t, t ∈ lfree := by
    cases h : lfree with
    | nil => rw [h] at hlen1; cases hlen1
    | cons y ys => exact ⟨y, List.mem_cons_self y ys⟩
  have htfree := hallfree t ht
  have hcand : ∀ p ∈ (if (findPotentialMoves b).isEmpty then
      [(⟨((BOARD_SIZE / 2 : Nat) : Int), ((BOARD_SIZE / 2 : Nat) : Int)⟩ : Pos)]
    else findPotentialMoves b), isEmptyCell b p.row p.col = true := by
    by_cases hpe : (findPotentialMoves b).isEmpty
    · rw [if_pos hpe]
      intro p hp
      rcases List.mem_singleton.mp hp with rfl
      by_cases hstone : ∃ (qr qc : Int), aiInside qr qc = true ∧ getCell b qr qc ≠ Cell.empty
      · exfalso
        obtain ⟨qr, qc, hqin, hqstone⟩ := hstone
        have hemp := htfree
        unfold isEmptyCell at hemp
        rw [Bool.and_eq_true] at hemp
        obtain ⟨pr, pc, d, hin, hst, hd, he⟩ := stone_with_empty_neighbor b
          ((qr - t.row).natAbs + (qc - t.col).natAbs) qr qc t.row t.col hqin hemp.1 rfl
          hqstone (of_decide_eq_true hemp.2)
        have hne := findPotentialMoves_ne_nil b (potentialRaw_ne_nil b pr pc d hin hst hd he)
        rw [List.isEmpty_iff] at hpe
        exact hne hpe
      · push_neg at hstone
        have hc77 : getCell b ((BOARD_SIZE / 2 : Nat) : Int) ((BOARD_SIZE / 2 : Nat) : Int) =
            Cell.empty := hstone _ _ (by decide)
        unfold isEmptyCell
        rw [hc77]
        have hin77 : aiInside ((BOARD_SIZE / 2 : Nat) : Int) ((BOARD_SIZE / 2 : Nat) : Int) =
            true := by decide
        rw [hin77]
        rfl
    · rw [if_neg hpe]
      intro p hp
      exact findPotentialMoves_empty b p hp
  obtain ⟨hboard, hmem⟩ := scoreCandidates_restore player persp
    (if (findPotentialMoves b).isEmpty then
      [(⟨((BOARD_SIZE / 2 : Nat) : Int), ((BOARD_SIZE / 2 : Nat) : Int)⟩ : Pos)]
    else findPotentialMoves b) b (by
      intro p hp
      have hx := hcand p hp
      unfold isEmptyCell at hx
      rw [Bool.and_eq_true] at hx
      exact of_decide_eq_true hx.2)
  constructor
  · simp only [prepareCandidates, rankCandidates]
    exact hboard
  · simp only [prepareCandidates, rankCandidates]
    intro m hm
    by_cases hlim : 0 < limit ∧ limit < (sortDescByScore (scoreCandidates player persp b
        (if (findPotentialMoves b).isEmpty = true then
          [(⟨((BOARD_SIZE / 2 : Nat) : Int), ((BOARD_SIZE / 2 : Nat) : Int)⟩ : Pos)]
        else findPotentialMoves b)).1).length
    · rw [if_pos hlim] at hm
      obtain ⟨q, hq, hr, hc⟩ := hmem m (mem_sortDescByScore _ m (List.take_subset _ _ hm))
      rw [hr, hc]
      exact hcand q hq
    · rw [if_neg hlim] at hm
      obtain ⟨q, hq, hr, hc⟩ := hmem m (mem_sortDescByScore _ m hm)
      rw [hr, hc]
      exact hcand q hq
/-- The easy tier never leaves the board changed when an empty cell
    exists. -/
theorem makeEasyMove_restore (ai : AIPlayer) (b : Board) (hfree : emptyFree b 1) :
    (makeEasyMove ai b).2 = b := by
  obtain ⟨hb, _⟩ := prepareCandidates_restore b EASY_CANDIDATE_LIMIT ai.playerColor
    ai.playerColor hfree
  cases h1 : findWinningMove b ai.playerColor with
  | some w => simp only [makeEasyMove, h1]
  | none =>
    cases h2 : findWinningMove b (getOpponent ai.playerColor) with
    | some w => simp only [makeEasyMove, h1, h2]
    | none =>
      simp only [makeEasyMove, h1, h2]
      by_cases hc : (prepareCandidates b EASY_CANDIDATE_LIMIT ai.playerColor
          ai.playerColor).1.isEmpty = false
      · rw [if_pos hc]
        exact hb
      · rw [if_neg hc]
        exact hb

/-- `prepareCandidatesForPlayer` restores the board and yields empty
    cells. -/
theorem prepareCandidatesForPlayer_restore (ai : AIPlayer) (b : Board) (player : Cell)
    (limit : Nat) (hfree : emptyFree b 1) :
    (prepareCandidatesForPlayer ai b player limit).2 = b ∧
    ∀ p ∈ (prepareCandidatesForPlayer ai b player limit).1,
      getCell b p.row p.col = Cell.empty := by
  obtain ⟨hb, hmem⟩ := prepareCandidates_restore b limit player ai.playerColor hfree
  constructor
  · simp only [prepareCandidatesForPlayer]
    exact hb
  · simp only [prepareCandidatesForPlayer]
    intro p hp
    rw [List.mem_map] at hp
    obtain ⟨m, hm, rfl⟩ := hp
    have hx := hmem m hm
    unfold isEmptyCell at hx
    rw [Bool.and_eq_true] at hx
    exact of_decide_eq_true hx.2

/-- The reply loop restores the board when all replies are empty cells. -/
theorem mediumReplyLoop_restore (ai : AIPlayer) (opp : Cell) :
    ∀ (l : List Pos) (b : Board) (w : Ext),
      (∀ p ∈ l, getCell b p.row p.col = Cell.empty) →
      (mediumReplyLoop ai opp b l w).2 = b := by
  intro l
  induction l with
  | nil => intro b w _; rfl
  | cons x xs ih =>
    intro b w hall
    simp only [mediumReplyLoop, evaluateMove]
    rw [setCell_restore b x.row x.col opp (hall x (List.mem_cons_self x xs))]
    exact ih b _ (fun p hp => hall p (List.mem_cons_of_mem x hp))

/-- The medium candidate loop restores the board when at least two empty
    cells exist and every candidate is an empty in-bounds cell. -/
theorem mediumLoop_restore (ai : AIPlayer) (opp : Cell) :
    ∀ (cands : List ScoredMove) (b : Board) (best : Ext) (bm : Option Pos),
      emptyFree b 2 →
      (∀ m ∈ cands, isEmptyCell b m.row m.col = true) →
      (mediumLoop ai opp b cands best bm).2 = b := by
  intro cands
  induction cands with
  | nil => intro b best bm _ _; rfl
  | cons cand rest ih =>
    intro b best bm hfree hall
    have hcand := hall cand (List.mem_cons_self cand rest)
    have hcempty : getCell b cand.row cand.col = Cell.empty := by
      unfold isEmptyCell at hcand
      rw [Bool.and_eq_true] at hcand
      exact of_decide_eq_true hcand.2
    have hb1free : emptyFree (setCell b cand.row cand.col ai.playerColor) 1 :=
      emptyFree_setCell b 1 ⟨cand.row, cand.col⟩ ai.playerColor hfree
    have hallrest : ∀ m ∈ rest, isEmptyCell b m.row m.col = true :=
      fun m hm => hall m (List.mem_cons_of_mem cand hm)
    have hback : setCell (setCell b cand.row cand.col ai.playerColor) cand.row cand.col
        Cell.empty = b := setCell_restore b cand.row cand.col ai.playerColor hcempty
    obtain ⟨hrr2, hrrmem⟩ := prepareCandidatesForPlayer_restore ai
      (setCell b cand.row cand.col ai.playerColor) opp MEDIUM_RESPONSE_LIMIT hb1free
    simp only [mediumLoop]
    by_cases hcw : checkWinningMove (setCell b cand.row cand.col ai.playerColor)
        cand.row cand.col ai.playerColor = true
    · rw [if_pos hcw]
      by_cases hle : Ext.le (Ext.fin WIN_SCORE) best = true
      · rw [if_pos hle, hback]
        exact ih b best bm hfree hallrest
      · rw [if_neg hle, hback]
        exact ih b _ _ hfree hallrest
    · rw [if_neg hcw, hrr2]
      by_cases hemp : (prepareCandidatesForPlayer ai
          (setCell b cand.row cand.col ai.playerColor) opp MEDIUM_RESPONSE_LIMIT).1.isEmpty = true
      · rw [if_pos hemp, hback]
        by_cases hle : Ext.le (Ext.fin (evaluateBoard
            (setCell b cand.row cand.col ai.playerColor) ai.playerColor)) best = true
        · rw [if_pos hle]
          exact ih b best bm hfree hallrest
        · rw [if_neg hle]
          exact ih b _ _ hfree hallrest
      · rw [if_neg hemp]
        rw [mediumReplyLoop_restore ai opp _ _ Ext.pinf hrrmem, hback]
        by_cases hle : Ext.le (mediumReplyLoop ai opp
            (setCell b cand.row cand.col ai.playerColor)
            (prepareCandidatesForPlayer ai (setCell b cand.row cand.col ai.playerColor) opp
              MEDIUM_RESPONSE_LIMIT).1 Ext.pinf).1 best = true
        · rw [if_pos hle]
          exact ih b best bm hfree hallrest
        · rw [if_neg hle]
          exact ih b _ _ hfree hallrest

/-- The medium tier never leaves the board changed when at least two empty
    cells exist. -/
theorem makeMediumMove_restore (ai : AIPlayer) (b : Board) (hfree : emptyFree b 2) :
    (makeMediumMove ai b).2 = b := by
  have hfree1 : emptyFree b 1 := emptyFree_mono b 1 2 (by omega) hfree
  obtain ⟨hb, hmem⟩ := prepareCandidates_restore b MEDIUM_CANDIDATE_LIMIT ai.playerColor
    ai.playerColor hfree1
  cases h1 : findWinningMove b ai.playerColor with
  | some w => simp only [makeMediumMove, h1]
  | none =>
    cases h2 : findWinningMove b (getOpponent ai.playerColor) with
    | some w => simp only [makeMediumMove, h1, h2]
    | none =>
      simp only [makeMediumMove, h1, h2]
      by_cases hc : (prepareCandidates b MEDIUM_CANDIDATE_LIMIT ai.playerColor
          ai.playerColor).1.isEmpty = true
      · rw [if_pos hc]
        exact hb
      · rw [if_neg hc]
        have hloop := mediumLoop_restore ai (getOpponent ai.playerColor)
          (prepareCandidates b MEDIUM_CANDIDATE_LIMIT ai.playerColor ai.playerColor).1
          b Ext.ninf none hfree (fun m hm => hmem m hm)
        rw [hb]
        cases hml : (mediumLoop ai (getOpponent ai.playerColor) b
            (prepareCandidates b MEDIUM_CANDIDATE_LIMIT ai.playerColor ai.playerColor).1
            Ext.ninf none).1 with
        | some mv => exact hloop
        | none => exact hloop
/-- The minimax search restores the board whenever it has at least `depth`
    empty cells (each search level consumes one). -/
theorem minimax_restore (ai : AIPlayer) :
    ∀ (depth : Nat) (b : Board) (maximizing : Bool) (alpha beta : Ext),
      emptyFree b depth →
      (minimax ai b depth maximizing alpha beta).2 = b := by
  intro depth
  induction depth with
  | zero =>
    intro b maximizing alpha beta _
    simp only [minimax]
  | succ d ih =>
    intro b maximizing alpha beta hfree
    have hfree1 : emptyFree b 1 := emptyFree_mono b 1 (d + 1) (by omega) hfree
    obtain ⟨hcr2, hcrmem⟩ := prepareCandidatesForPlayer_restore ai b
      (if maximizing then ai.playerColor else getOpponent ai.playerColor)
      HARD_CANDIDATE_LIMIT hfree1
    have hloop : ∀ (cands : List Pos) (cur : Cell) (bb : Board) (al be best : Ext),
        emptyFree bb (d + 1) →
        (∀ p ∈ cands, getCell bb p.row p.col = Cell.empty) →
        (minimaxLoop ai d maximizing cur bb cands al be best).2 = bb := by
      intro cands
      induction cands with
      | nil =>
        intro cur bb al be best _ _
        simp only [minimaxLoop]
      | cons cand rest ihc =>
        intro cur bb al be best hfreebb hallbb
        have hcempty := hallbb cand (List.mem_cons_self cand rest)
        have hallrest : ∀ p ∈ rest, getCell bb p.row p.col = Cell.empty :=
          fun p hp => hallbb p (List.mem_cons_of_mem cand hp)
        have hfreeb1 : emptyFree (setCell bb cand.row cand.col cur) d :=
          emptyFree_setCell bb d ⟨cand.row, cand.col⟩ cur hfreebb
        have hback : setCell (setCell bb cand.row cand.col cur) cand.row cand.col
            Cell.empty = bb := setCell_restore bb cand.row cand.col cur hcempty
        have hmm := ih (setCell bb cand.row cand.col cur) (!maximizing) al be hfreeb1
        simp only [minimaxLoop]
        by_cases hcw : checkWinningMove (setCell bb cand.row cand.col cur)
            cand.row cand.col cur = true
        · rw [if_pos hcw, hback]
          split
          · split
            · rfl
            · exact ihc cur bb _ _ _ hfreebb hallrest
          · split
            · rfl
            · exact ihc cur bb _ _ _ hfreebb hallrest
        · rw [if_neg hcw, hmm, hback]
          split
          · split
            · rfl
            · exact ihc cur bb _ _ _ hfreebb hallrest
          · split
            · rfl
            · exact ihc cur bb _ _ _ hfreebb hallrest
    simp only [minimax]
    rw [hcr2]
    by_cases hemp : (prepareCandidatesForPlayer ai b
        (if maximizing then ai.playerColor else getOpponent ai.playerColor)
        HARD_CANDIDATE_LIMIT).1.isEmpty = true
    · rw [if_pos hemp]
    · rw [if_neg hemp]
      have hl := hloop (prepareCandidatesForPlayer ai b
          (if maximizing then ai.playerColor else getOpponent ai.playerColor)
          HARD_CANDIDATE_LIMIT).1
        (if maximizing then ai.playerColor else getOpponent ai.playerColor) b alpha beta
        (if maximizing then Ext.ninf else Ext.pinf) hfree (fun p hp => hcrmem p hp)
      cases hlr : (minimaxLoop ai d maximizing
          (if maximizing then ai.playerColor else getOpponent ai.playerColor) b
          (prepareCandidatesForPlayer ai b
            (if maximizing then ai.playerColor else getOpponent ai.playerColor)
            HARD_CANDIDATE_LIMIT).1 alpha beta
          (if maximizing then Ext.ninf else Ext.pinf)).1 with
      | ninf => exact hl
      | fin v => exact hl
      | pinf => exact hl
/-- The hard tier's root loop restores the board when at least three empty
    cells exist and every candidate is an empty in-bounds cell. -/
theorem hardRootLoop_restore (ai : AIPlayer) :
    ∀ (cands : List ScoredMove) (b : Board) (best : Ext) (bm : Option Pos),
      emptyFree b 3 →
      (∀ m ∈ cands, isEmptyCell b m.row m.col = true) →
      (hardRootLoop ai b cands best bm).2 = b := by
  intro cands
  induction cands with
  | nil => intro b best bm _ _; rfl
  | cons cand rest ihc =>
    intro b best bm hfree hall
    have hcand := hall cand (List.mem_cons_self cand rest)
    have hcempty : getCell b cand.row cand.col = Cell.empty := by
      unfold isEmptyCell at hcand
      rw [Bool.and_eq_true] at hcand
      exact of_decide_eq_true hcand.2
    have hallrest : ∀ m ∈ rest, isEmptyCell b m.row m.col = true :=
      fun m hm => hall m (List.mem_cons_of_mem cand hm)
    have hfreeb1 : emptyFree (setCell b cand.row cand.col ai.playerColor) 2 :=
      emptyFree_setCell b 2 ⟨cand.row, cand.col⟩ ai.playerColor hfree
    have hback : setCell (setCell b cand.row cand.col ai.playerColor) cand.row cand.col
        Cell.empty = b := setCell_restore b cand.row cand.col ai.playerColor hcempty
    have hmm := minimax_restore ai (HARD_SEARCH_DEPTH - 1)
      (setCell b cand.row cand.col ai.playerColor) false Ext.ninf Ext.pinf hfreeb1
    simp only [hardRootLoop]
    by_cases hcw : checkWinningMove (setCell b cand.row cand.col ai.playerColor)
        cand.row cand.col ai.playerColor = true
    · rw [if_pos hcw, hback]
      split
      · exact ihc b _ _ hfree hallrest
      · exact ihc b _ _ hfree hallrest
    · rw [if_neg hcw, hmm, hback]
      split
      · exact ihc b _ _ hfree hallrest
      · exact ihc b _ _ hfree hallrest

/-- The hard tier never leaves the board changed when at least three empty
    cells exist. -/
theorem makeHardMove_restore (ai : AIPlayer) (b : Board) (hfree : emptyFree b 3) :
    (makeHardMove ai b).2 = b := by
  have hfree1 : emptyFree b 1 := emptyFree_mono b 1 3 (by omega) hfree
  obtain ⟨hb, hmem⟩ := prepareCandidates_restore b HARD_CANDIDATE_LIMIT ai.playerColor
    ai.playerColor hfree1
  cases h1 : findWinningMove b ai.playerColor with
  | some w => simp only [makeHardMove, h1]
  | none =>
    cases h2 : findWinningMove b (getOpponent ai.playerColor) with
    | some w => simp only [makeHardMove, h1, h2]
    | none =>
      simp only [makeHardMove, h1, h2]
      by_cases hc : (prepareCandidates b HARD_CANDIDATE_LIMIT ai.playerColor
          ai.playerColor).1.isEmpty = true
      · rw [if_pos hc]
        exact hb
      · rw [if_neg hc]
        have hloop := hardRootLoop_restore ai
          (prepareCandidates b HARD_CANDIDATE_LIMIT ai.playerColor ai.playerColor).1
          b Ext.ninf none hfree (fun m hm => hmem m hm)
        rw [hb]
        cases hml : (hardRootLoop ai b
            (prepareCandidates b HARD_CANDIDATE_LIMIT ai.playerColor ai.playerColor).1
            Ext.ninf none).1 with
        | some mv => exact hloop
        | none =>
          rw [hloop]
          exact makeMediumMove_restore ai b (emptyFree_mono b 2 3 (by omega) hfree)

/-- **C4 (amended).** For every valid 15×15 board with at least as many
    empty cells as the tier's maximum number of simultaneous trial
    placements — 1 for easy, 2 for medium, 3 for hard — `makeMove` returns
    the board deep-equal to its contents before the call: every trial
    placement is reverted.  (On boards with fewer empty cells the occupied-
    center candidate fallback erases a stone; see the counterexample.) -/
theorem ai_move_board_restoration (ai : AIPlayer) (b : Board)
    (hshape : b.length = BOARD_SIZE ∧ (b.getD 0 []).length = BOARD_SIZE)
    (hfree : emptyFree b
      (match ai.difficulty with
        | Difficulty.easy => 1
        | Difficulty.medium => 2
        | Difficulty.hard => 3)) :
    ∃ mv, makeMove ai b = Except.ok (mv, b) := by
  unfold makeMove
  rw [if_pos hshape]
  cases hd : ai.difficulty with
  | easy =>
    rw [hd] at hfree
    have h := makeEasyMove_restore ai b hfree
    have hpair : makeEasyMove ai b = ((makeEasyMove ai b).1, b) := Prod.ext_iff.mpr ⟨rfl, h⟩
    exact ⟨(makeEasyMove ai b).1, by rw [hpair]⟩
  | medium =>
    rw [hd] at hfree
    have h := makeMediumMove_restore ai b hfree
    have hpair : makeMediumMove ai b = ((makeMediumMove ai b).1, b) := Prod.ext_iff.mpr ⟨rfl, h⟩
    exact ⟨(makeMediumMove ai b).1, by rw [hpair]⟩
  | hard =>
    rw [hd] at hfree
    have h := makeHardMove_restore ai b hfree
    have hpair : makeHardMove ai b = ((makeHardMove ai b).1, b) := Prod.ext_iff.mpr ⟨rfl, h⟩
    exact ⟨(makeHardMove ai b).1, by rw [hpair]⟩

/-- Counterexample to C4 as stated: on the completely full (hence valid)
    all-black board, the easy white AI's candidate fallback trial-places on
    the occupied center and "restores" it to empty, so the board after
    `makeMove` differs from the board before. -/
theorem ai_board_mutation_counterexample :
    makeMove ⟨Difficulty.easy, Cell.white, 0⟩ fullBlackBoard =
      Except.ok (some ⟨7, 7⟩, setCell fullBlackBoard 7 7 Cell.empty) ∧
    setCell fullBlackBoard 7 7 Cell.empty ≠ fullBlackBoard := by
  constructor
  · unfold makeMove
    rw [if_pos (⟨by decide, by decide⟩ :
      fullBlackBoard.length = BOARD_SIZE ∧ (fullBlackBoard.getD 0 []).length = BOARD_SIZE)]
    rw [makeEasyMove_full ⟨Difficulty.easy, Cell.white, 0⟩ fullBlackBoard
      ⟨by decide, by decide, by decide⟩ (by norm_num) (by norm_num)]
  · decide

/-- Witness for C4 (amended) at a concrete input: the hard AI on the C9
    scenario board returns the board unchanged. -/
theorem ai_move_board_restoration_witness :
    ∃ mv, makeMove ⟨Difficulty.hard, Cell.white, 0⟩ c9Board = Except.ok (mv, c9Board) :=
  ai_move_board_restoration ⟨Difficulty.hard, Cell.white, 0⟩ c9Board
    ⟨by decide, by decide⟩
    ⟨[⟨0, 0⟩, ⟨0, 1⟩, ⟨0, 2⟩], by decide, by decide, by decide⟩

/-! ## Claim C6: undo-then-replay roundtrip -/

/-- Clear the cells of a list of moves, front to back (each write stores
    `empty`, exactly as the pop loop of `undoLastMove` does). -/
def clearCells (b : Board) (ms : List Move) : Board :=
  ms.foldl (fun bb m => setCell bb m.row m.col Cell.empty) b

theorem clearCells_nil (b : Board) : clearCells b [] = b := rfl

theorem clearCells_cons (b : Board) (m : Move) (ms : List Move) :
    clearCells b (m :: ms) = clearCells (setCell b m.row m.col Cell.empty) ms := rfl

theorem clearCells_append (b : Board) (l1 l2 : List Move) :
    clearCells b (l1 ++ l2) = clearCells (clearCells b l1) l2 := by
  unfold clearCells
  rw [List.foldl_append]

/-- Peeling the head move off a reversed clearing list: the head's cell is
    the last to be cleared. -/
theorem clearCells_reverse_cons (b : Board) (m : Move) (ms : List Move) :
    clearCells b (m :: ms).reverse =
      setCell (clearCells b ms.reverse) m.row m.col Cell.empty := by
  rw [List.reverse_cons, clearCells_append]
  rfl

/-- Reading back a cell just cleared always yields `empty` (out-of-range
    reads already default to `empty`). -/
theorem getCell_setCell_empty (b : Board) (r c : Int) :
    getCell (setCell b r c Cell.empty) r c = Cell.empty := by
  unfold getCell setCell
  by_cases h0 : 0 ≤ r ∧ 0 ≤ c
  · rw [if_pos h0, if_pos h0]
    by_cases hr : r.toNat < b.length
    · have hgd : (b.set r.toNat ((b.getD r.toNat []).set c.toNat Cell.empty)).getD r.toNat [] =
          (b.getD r.toNat []).set c.toNat Cell.empty := by
        rw [List.getD_eq_getElem _ [] (by rw [List.length_set]; exact hr)]
        exact List.getElem_set_self (by rw [List.length_set]; exact hr)
      rw [hgd]
      by_cases hc : c.toNat < (b.getD r.toNat []).length
      · rw [List.getD_eq_getElem _ Cell.empty (by rw [List.length_set]; exact hc)]
        exact List.getElem_set_self (by rw [List.length_set]; exact hc)
      · rw [List.getD_eq_default _ Cell.empty (by rw [List.length_set]; omega)]
    · rw [List.set_eq_of_length_le (by omega),
        List.getD_eq_default b [] (by omega)]
      rfl
  · rw [if_neg h0]

/-- Writing back the value a cell already holds is the identity. -/
theorem setCell_getCell (b : Board) (r c : Int) :
    setCell b r c (getCell b r c) = b := by
  unfold setCell getCell
  by_cases h0 : 0 ≤ r ∧ 0 ≤ c
  · rw [if_pos h0, if_pos h0, list_set_self, board_set_self]
  · rw [if_neg h0]

/-- Reading an in-bounds cell right after writing it yields the written
    value. -/
theorem getCell_setCell_self (b : Board) (r c : Int) (v : Cell)
    (h0 : 0 ≤ r ∧ 0 ≤ c) (hr : r.toNat < b.length)
    (hc : c.toNat < (b.getD r.toNat []).length) :
    getCell (setCell b r c v) r c = v := by
  unfold getCell setCell
  rw [if_pos h0, if_pos h0]
  have hgd : (b.set r.toNat ((b.getD r.toNat []).set c.toNat v)).getD r.toNat [] =
      (b.getD r.toNat []).set c.toNat v := by
    rw [List.getD_eq_getElem _ [] (by rw [List.length_set]; exact hr)]
    exact List.getElem_set_self (by rw [List.length_set]; exact hr)
  rw [hgd, List.getD_eq_getElem _ Cell.empty (by rw [List.length_set]; exact hc)]
  exact List.getElem_set_self (by rw [List.length_set]; exact hc)

/-- Clearing a list of cells leaves every other cell unchanged. -/
theorem getCell_clearCells_ne (ms : List Move) :
    ∀ (b : Board) (r c : Int), (∀ m ∈ ms, r ≠ m.row ∨ c ≠ m.col) →
      getCell (clearCells b ms) r c = getCell b r c := by
  induction ms with
  | nil => intro b r c _; rfl
  | cons m t ih =>
    intro b r c h
    rw [clearCells_cons, ih _ _ _ (fun mm hmm => h mm (List.mem_cons_of_mem m hmm))]
    have hne := h m (List.mem_cons_self m t)
    exact getCell_setCell_ne b m.row m.col r c Cell.empty (by tauto)

/-- `setCell` keeps the number of rows. -/
theorem setCell_length (b : Board) (r c : Int) (v : Cell) :
    (setCell b r c v).length = b.length := by
  unfold setCell
  by_cases h0 : 0 ≤ r ∧ 0 ≤ c
  · rw [if_pos h0, List.length_set]
  · rw [if_neg h0]

/-- `setCell` keeps the length of every row. -/
theorem setCell_row_length (b : Board) (r c : Int) (v : Cell) (i : Nat) :
    ((setCell b r c v).getD i []).length = (b.getD i []).length := by
  unfold setCell
  by_cases h0 : 0 ≤ r ∧ 0 ≤ c
  · rw [if_pos h0]
    by_cases hr : r.toNat < b.length
    · by_cases hir : i = r.toNat
      · subst hir
        rw [List.getD_eq_getElem _ [] (by rw [List.length_set]; exact hr),
          List.getElem_set_self (by rw [List.length_set]; exact hr),
          List.length_set]
      · by_cases hi : i < b.length
        · rw [List.getD_eq_getElem _ [] (by rw [List.length_set]; exact hi),
            List.getD_eq_getElem b [] hi]
          congr 1
          exact List.getElem_set_ne (fun hcontra => hir hcontra.symm) _
        · rw [List.getD_eq_default _ [] (by rw [List.length_set]; omega),
            List.getD_eq_default b [] (by omega)]
    · rw [List.set_eq_of_length_le (by omega)]
  · rw [if_neg h0]

/-- Unfolded form of `isInside`. -/
theorem isInside_iff (n : Nat) (r c : Int) :
    isInside n r c = true ↔ 0 ≤ r ∧ r < (n : Int) ∧ 0 ≤ c ∧ c < (n : Int) := by
  simp [isInside, and_assoc]

theorem getOpponent_ne_empty (p : Cell) : getOpponent p ≠ Cell.empty := by
  unfold getOpponent
  by_cases h : p = Cell.black <;> simp [h]

/-- Strict alternation of the recorded players along a move list. -/
def altList : List Move → Prop
  | a :: b :: rest => b.player = getOpponent a.player ∧ altList (b :: rest)
  | _ => True

theorem altList_nil : altList [] := trivial

theorem altList_single (m : Move) : altList [m] := trivial

theorem altList_tail (a : Move) (t : List Move) (h : altList (a :: t)) : altList t := by
  cases t with
  | nil => trivial
  | cons b t' => exact h.2

theorem altList_append (x : Move) :
    ∀ l : List Move, altList l →
      (∀ q mm, l = q ++ [mm] → x.player = getOpponent mm.player) →
      altList (l ++ [x]) := by
  intro l
  induction l with
  | nil => intro _ _; exact altList_single x
  | cons a t ih =>
    intro hl hx
    cases t with
    | nil =>
      exact ⟨hx [] a rfl, altList_single x⟩
    | cons b t' =>
      exact ⟨hl.1, ih hl.2 (fun q mm hq => hx (a :: q) mm (by rw [hq]; rfl))⟩

theorem altList_adjacent :
    ∀ (pre : List Move) (l : List Move) (a b : Move) (post : List Move),
      altList l → l = pre ++ a :: b :: post → b.player = getOpponent a.player := by
  intro pre
  induction pre with
  | nil =>
    intro l a b post hl hsplit
    subst hsplit
    exact hl.1
  | cons x pre' ih =>
    intro l a b post hl hsplit
    subst hsplit
    exact ih _ a b post (altList_tail x _ hl) rfl

theorem altList_drop_one (l : List Move) (h : altList l) : altList (l.drop 1) := by
  cases l with
  | nil => exact altList_nil
  | cons a t => exact altList_tail a t h

theorem nodup_pairs_drop_one (l : List Move)
    (h : (l.map fun m => (m.row, m.col)).Nodup) :
    ((l.drop 1).map fun m => (m.row, m.col)).Nodup :=
  List.Nodup.sublist ((List.drop_sublist 1 l).map _) h

/-- The reachability invariant maintained by `applyMove` from a freshly
    constructed engine: board dimensions, history/board agreement,
    distinctness and alternation of the recorded moves, absence of
    intermediate terminal positions, and the linkage between the current
    player, the terminal flag, and the most recent recorded move. -/
structure EngineInv (e : Engine) : Prop where
  board_len : e.board.length = e.boardSize
  row_len : ∀ i : Nat, i < e.board.length → (e.board.getD i []).length = e.boardSize
  cur_ne : e.currentPlayer ≠ Cell.empty
  mh_pos : ∀ mx, e.maxHistory = some mx → 1 ≤ mx
  hist_mem : ∀ m ∈ e.moveHistory,
      isInside e.boardSize m.row m.col = true ∧
      getCell e.board m.row m.col = m.player ∧ m.player ≠ Cell.empty
  nodup : (e.moveHistory.map fun m => (m.row, m.col)).Nodup
  alt : altList e.moveHistory
  mid_ok : ∀ pre m post, e.moveHistory = pre ++ m :: post → post ≠ [] →
      determineWinningSequence (clearCells e.board post.reverse) m.row m.col = none ∧
      checkDraw (clearCells e.board post.reverse) = false
  last_cont : e.gameOver = false → ∀ pre m, e.moveHistory = pre ++ [m] →
      determineWinningSequence e.board m.row m.col = none ∧ checkDraw e.board = false
  cur_link : e.gameOver = false → ∀ pre m, e.moveHistory = pre ++ [m] →
      e.currentPlayer = getOpponent m.player
  cur_empty : e.moveHistory = [] → e.currentPlayer = e.startingPlayer ∧ e.gameOver = false
  term_last : e.gameOver = true → ∃ pre m, e.moveHistory = pre ++ [m] ∧
      e.currentPlayer = m.player ∧
      ¬(determineWinningSequence e.board m.row m.col = none ∧ checkDraw e.board = false)
  head_sp : e.maxHistory = none → ∀ m rest, e.moveHistory = m :: rest →
      m.player = e.startingPlayer

/-- After a validated `applyMove`, the fields not involved in the outcome
    match: the stone is placed and the identity fields are kept, and the
    terminal flag / current player follow the win and draw checks. -/
theorem applyMove_valid_main (e : Engine) (row col : Int)
    (hgo : e.gameOver = false) (hin : isInside e.boardSize row col = true)
    (hocc : getCell e.board row col = Cell.empty) :
    (applyMove e row col).1.boardSize = e.boardSize ∧
    (applyMove e row col).1.startingPlayer = e.startingPlayer ∧
    (applyMove e row col).1.maxHistory = e.maxHistory ∧
    (applyMove e row col).1.board = setCell e.board row col e.currentPlayer ∧
    (((applyMove e row col).1.gameOver = false ∧
      (applyMove e row col).1.currentPlayer = getOpponent e.currentPlayer ∧
      determineWinningSequence (setCell e.board row col e.currentPlayer) row col = none ∧
      checkDraw (setCell e.board row col e.currentPlayer) = false) ∨
     ((applyMove e row col).1.gameOver = true ∧
      (applyMove e row col).1.currentPlayer = e.currentPlayer ∧
      ¬(determineWinningSequence (setCell e.board row col e.currentPlayer) row col = none ∧
        checkDraw (setCell e.board row col e.currentPlayer) = false))) := by
  unfold applyMove
  simp only [hgo, if_false, hin, Bool.true_eq_false, if_false, hocc,
    ne_eq, not_true_eq_false, if_false]
  cases hw : determineWinningSequence (setCell e.board row col e.currentPlayer) row col with
  | some wd => simp
  | none =>
    by_cases hd : checkDraw (setCell e.board row col e.currentPlayer)
    · simp [hd]
    · simp [hd]

/-- After a validated `applyMove`, the history is the previous history
    (with the oldest entry evicted when the cap is exceeded) plus the new
    move. -/
theorem applyMove_valid_hist (e : Engine) (row col : Int)
    (hgo : e.gameOver = false) (hin : isInside e.boardSize row col = true)
    (hocc : getCell e.board row col = Cell.empty)
    (hmx1 : ∀ mx, e.maxHistory = some mx → 1 ≤ mx) :
    ∃ old', (old' = e.moveHistory ∨ old' = e.moveHistory.drop 1) ∧
      (e.maxHistory = none → old' = e.moveHistory) ∧
      (applyMove e row col).1.moveHistory =
        old' ++ [⟨row, col, e.currentPlayer⟩] := by
  unfold applyMove
  simp only [hgo, Bool.false_eq_true, if_false, hin, Bool.true_eq_false, hocc,
    ne_eq, not_true_eq_false, if_false]
  cases hmx : e.maxHistory with
  | none =>
    refine ⟨e.moveHistory, Or.inl rfl, fun _ => rfl, ?_⟩
    cases hw : determineWinningSequence (setCell e.board row col e.currentPlayer) row col with
    | some wd => simp
    | none =>
      by_cases hd : checkDraw (setCell e.board row col e.currentPlayer)
      · simp [hd]
      · simp [hd]
  | some mx =>
    simp only []
    by_cases hlt : mx < (e.moveHistory ++ [(⟨row, col, e.currentPlayer⟩ : Move)]).length
    · rw [if_pos hlt]
      refine ⟨e.moveHistory.drop 1, Or.inr rfl, (fun hc => nomatch hc), ?_⟩
      have h1 : 1 ≤ e.moveHistory.length := by
        have := hmx1 mx hmx
        rw [List.length_append, List.length_singleton] at hlt
        omega
      have hdrop : (e.moveHistory ++ [(⟨row, col, e.currentPlayer⟩ : Move)]).drop 1 =
          e.moveHistory.drop 1 ++ [(⟨row, col, e.currentPlayer⟩ : Move)] :=
        List.drop_append_of_le_length h1
      rw [hdrop]
      cases hw : determineWinningSequence (setCell e.board row col e.currentPlayer) row col with
      | some wd => simp
      | none =>
        by_cases hd : checkDraw (setCell e.board row col e.currentPlayer)
        · simp [hd]
        · simp [hd]
    · rw [if_neg hlt]
      refine ⟨e.moveHistory, Or.inl rfl, fun _ => rfl, ?_⟩
      cases hw : determineWinningSequence (setCell e.board row col e.currentPlayer) row col with
      | some wd => simp
      | none =>
        by_cases hd : checkDraw (setCell e.board row col e.currentPlayer)
        · simp [hd]
        · simp [hd]

/-- Clearing a trailing move with known coordinates peels one `setCell`. -/
theorem clearCells_reverse_concat (b : Board) (r c : Int) (p : Cell) (q : List Move) :
    clearCells b (q ++ [(⟨r, c, p⟩ : Move)]).reverse =
      clearCells (setCell b r c Cell.empty) q.reverse := by
  rw [List.reverse_append]
  rfl

/-- One validated `applyMove` step preserves the reachability invariant:
    stated for any engine `e'` whose fields relate to `e` as the valid
    branch of `applyMove` dictates. -/
theorem engineInv_step (e e' : Engine) (hInv : EngineInv e) (row col : Int)
    (hgo : e.gameOver = false) (hin : isInside e.boardSize row col = true)
    (hocc : getCell e.board row col = Cell.empty)
    (old' : List Move)
    (hshape : old' = e.moveHistory ∨ old' = e.moveHistory.drop 1)
    (hnone : e.maxHistory = none → old' = e.moveHistory)
    (hbs : e'.boardSize = e.boardSize)
    (hsp : e'.startingPlayer = e.startingPlayer)
    (hmh : e'.maxHistory = e.maxHistory)
    (hb : e'.board = setCell e.board row col e.currentPlayer)
    (hh : e'.moveHistory = old' ++ [⟨row, col, e.currentPlayer⟩])
    (hterm :
      (e'.gameOver = false ∧ e'.currentPlayer = getOpponent e.currentPlayer ∧
       determineWinningSequence (setCell e.board row col e.currentPlayer) row col = none ∧
       checkDraw (setCell e.board row col e.currentPlayer) = false) ∨
      (e'.gameOver = true ∧ e'.currentPlayer = e.currentPlayer ∧
       ¬(determineWinningSequence (setCell e.board row col e.currentPlayer) row col = none ∧
         checkDraw (setCell e.board row col e.currentPlayer) = false))) :
    EngineInv e' := by
  have hbounds := (isInside_iff e.boardSize row col).mp hin
  have h0 : 0 ≤ row ∧ 0 ≤ col := ⟨hbounds.1, hbounds.2.2.1⟩
  have hrlt : row.toNat < e.board.length := by
    rw [hInv.board_len]; omega
  have hclt : col.toNat < (e.board.getD row.toNat []).length := by
    rw [hInv.row_len row.toNat hrlt]; omega
  have hget_new : getCell (setCell e.board row col e.currentPlayer) row col =
      e.currentPlayer := getCell_setCell_self _ _ _ _ h0 hrlt hclt
  have hne_old : ∀ m ∈ e.moveHistory, row ≠ m.row ∨ col ≠ m.col := by
    intro m hm
    by_contra hcon
    push_neg at hcon
    obtain ⟨h1, h2⟩ := hcon
    have hval := (hInv.hist_mem m hm).2.1
    rw [← h1, ← h2, hocc] at hval
    exact (hInv.hist_mem m hm).2.2 hval.symm
  have hget_old : ∀ m ∈ e.moveHistory,
      getCell (setCell e.board row col e.currentPlayer) m.row m.col = m.player := by
    intro m hm
    rw [getCell_setCell_ne e.board row col m.row m.col e.currentPlayer (hne_old m hm)]
    exact (hInv.hist_mem m hm).2.1
  have hmem_old' : ∀ m ∈ old', m ∈ e.moveHistory := by
    rcases hshape with rfl | rfl
    · exact fun m hm => hm
    · exact fun m hm => List.mem_of_mem_drop hm
  have hsplit_lift : ∀ pre mm q, old' = pre ++ mm :: q →
      ∃ pre2, e.moveHistory = pre2 ++ mm :: q := by
    rcases hshape with rfl | rfl
    · exact fun pre mm q hq => ⟨pre, hq⟩
    · intro pre mm q hq
      refine ⟨e.moveHistory.take 1 ++ pre, ?_⟩
      conv_lhs => rw [← List.take_append_drop 1 e.moveHistory]
      rw [hq, List.append_assoc]
  have halt' : altList old' := by
    rcases hshape with rfl | rfl
    · exact hInv.alt
    · exact altList_drop_one _ hInv.alt
  have hnd' : (old'.map fun m => (m.row, m.col)).Nodup := by
    rcases hshape with rfl | rfl
    · exact hInv.nodup
    · exact nodup_pairs_drop_one _ hInv.nodup
  have hback : setCell (setCell e.board row col e.currentPlayer) row col Cell.empty =
      e.board := by
    rw [setCell_setCell]
    conv_lhs => rw [← hocc]
    exact setCell_getCell e.board row col
  refine
    { board_len := ?_, row_len := ?_, cur_ne := ?_, mh_pos := ?_, hist_mem := ?_,
      nodup := ?_, alt := ?_, mid_ok := ?_, last_cont := ?_, cur_link := ?_,
      cur_empty := ?_, term_last := ?_, head_sp := ?_ }
  · rw [hb, hbs, setCell_length]
    exact hInv.board_len
  · intro i hi
    rw [hb, setCell_length] at hi
    rw [hb, setCell_row_length, hbs]
    exact hInv.row_len i hi
  · rcases hterm with ⟨_, hcur, _⟩ | ⟨_, hcur, _⟩
    · rw [hcur]; exact getOpponent_ne_empty _
    · rw [hcur]; exact hInv.cur_ne
  · intro mx hmx
    rw [hmh] at hmx
    exact hInv.mh_pos mx hmx
  · intro m hm
    rw [hh] at hm
    rcases List.mem_append.mp hm with hmold | hmnew
    · have hmo := hmem_old' m hmold
      refine ⟨?_, ?_, (hInv.hist_mem m hmo).2.2⟩
      · rw [hbs]; exact (hInv.hist_mem m hmo).1
      · rw [hb]; exact hget_old m hmo
    · have hmeq : m = ⟨row, col, e.currentPlayer⟩ := List.mem_singleton.mp hmnew
      subst hmeq
      exact ⟨by rw [hbs]; exact hin, by rw [hb]; exact hget_new, hInv.cur_ne⟩
  · rw [hh, List.map_append, List.nodup_append]
    refine ⟨hnd', by simp, ?_⟩
    intro x hx1 hx2
    simp only [List.map_cons, List.map_nil, List.mem_singleton] at hx2
    subst hx2
    obtain ⟨m, hm, hmx⟩ := List.mem_map.mp hx1
    have hne := hne_old m (hmem_old' m hm)
    have hrr : m.row = row := congrArg Prod.fst hmx
    have hcc : m.col = col := congrArg Prod.snd hmx
    rcases hne with h | h
    · exact h hrr.symm
    · exact h hcc.symm
  · rw [hh]
    refine altList_append _ old' halt' ?_
    intro q mm hq
    obtain ⟨pre2, hpre2⟩ := hsplit_lift q mm [] hq
    exact hInv.cur_link hgo pre2 mm hpre2
  · intro pre mm post hsplit hpost
    rw [hh] at hsplit
    rcases post.eq_nil_or_concat with rfl | ⟨q, lastp, hql⟩
    · exact absurd rfl hpost
    · rw [List.concat_eq_append] at hql
      subst hql
      have hassoc : pre ++ mm :: (q ++ [lastp]) = (pre ++ mm :: q) ++ [lastp] := by
        simp
      rw [hassoc] at hsplit
      obtain ⟨hpre_eq, hlast_eq⟩ := List.append_inj' hsplit rfl
      injection hlast_eq with hlp
      subst hlp
      rw [hb, clearCells_reverse_concat, hback]
      cases q with
      | nil =>
        obtain ⟨pre2, hpre2⟩ := hsplit_lift pre mm [] hpre_eq
        have hlast := hInv.last_cont hgo pre2 mm hpre2
        simpa [clearCells_nil] using hlast
      | cons qh qt =>
        obtain ⟨pre2, hpre2⟩ := hsplit_lift pre mm (qh :: qt) hpre_eq
        exact hInv.mid_ok pre2 mm (qh :: qt) hpre2 (by simp)
  · intro hgo' pre mm hsplit
    rcases hterm with ⟨_, _, hwd, hdr⟩ | ⟨htrue, _, _⟩
    · rw [hh] at hsplit
      obtain ⟨hpe, hle⟩ := List.append_inj' hsplit.symm rfl
      injection hle with hmm
      subst hmm
      rw [hb]
      exact ⟨hwd, hdr⟩
    · rw [hgo'] at htrue
      exact Bool.noConfusion htrue
  · intro hgo' pre mm hsplit
    rcases hterm with ⟨_, hcur, _, _⟩ | ⟨htrue, _, _⟩
    · rw [hh] at hsplit
      obtain ⟨hpe, hle⟩ := List.append_inj' hsplit.symm rfl
      injection hle with hmm
      subst hmm
      exact hcur
    · rw [hgo'] at htrue
      exact Bool.noConfusion htrue
  · intro hemp
    rw [hh] at hemp
    simp at hemp
  · intro hgo'
    rcases hterm with ⟨hfalse, _, _⟩ | ⟨_, hcur, hnterm⟩
    · rw [hgo'] at hfalse
      exact Bool.noConfusion hfalse
    · refine ⟨old', ⟨row, col, e.currentPlayer⟩, hh, hcur, ?_⟩
      rw [hb]
      exact hnterm
  · intro hmhn m rest hsplit
    rw [hmh] at hmhn
    have hold : old' = e.moveHistory := hnone hmhn
    rw [hh, hold] at hsplit
    rw [hsp]
    cases hml : e.moveHistory with
    | nil =>
      rw [hml, List.nil_append] at hsplit
      injection hsplit with h1 h2
      rw [← h1]
      exact (hInv.cur_empty hml).1
    | cons a t =>
      rw [hml] at hsplit
      have hsplit2 : a :: (t ++ [(⟨row, col, e.currentPlayer⟩ : Move)]) = m :: rest :=
        hsplit
      injection hsplit2 with h1 h2
      rw [← h1]
      exact hInv.head_sp hmhn a t hml

/-- `applyMove` preserves the reachability invariant. -/
theorem engineInv_applyMove (e : Engine) (hInv : EngineInv e) (row col : Int) :
    EngineInv (applyMove e row col).1 := by
  by_cases hgo : e.gameOver = true
  · have happ : applyMove e row col = (e, Outcome.invalid "game-over") := by
      unfold applyMove; simp [hgo]
    rw [happ]
    exact hInv
  · have hgo' : e.gameOver = false := by
      cases hcase : e.gameOver
      · rfl
      · exact absurd hcase hgo
    by_cases hin : isInside e.boardSize row col = true
    · by_cases hocc : getCell e.board row col = Cell.empty
      · obtain ⟨old', hshape, hnone, hh⟩ :=
          applyMove_valid_hist e row col hgo' hin hocc hInv.mh_pos
        obtain ⟨hbs, hsp, hmh, hb, hterm⟩ := applyMove_valid_main e row col hgo' hin hocc
        exact engineInv_step e _ hInv row col hgo' hin hocc old' hshape hnone
          hbs hsp hmh hb hh hterm
      · have happ : applyMove e row col = (e, Outcome.invalid "occupied") := by
          unfold applyMove; simp [hgo', hin, hocc]
        rw [happ]
        exact hInv
    · have happ : applyMove e row col = (e, Outcome.invalid "out-of-bounds") := by
        unfold applyMove
        simp [hgo', eq_false_of_ne_true hin]
      rw [happ]
      exact hInv

/-- A freshly constructed engine satisfies the reachability invariant. -/
theorem engineInv_init (size : Nat) (sp : Cell) (mh : Option Int) :
    EngineInv (Engine.init size sp mh) := by
  refine
    { board_len := ?_, row_len := ?_, cur_ne := ?_, mh_pos := ?_, hist_mem := ?_,
      nodup := ?_, alt := ?_, mid_ok := ?_, last_cont := ?_, cur_link := ?_,
      cur_empty := ?_, term_last := ?_, head_sp := ?_ }
  · simp [Engine.init, createEmptyBoard]
  · intro i hi
    simp only [Engine.init, createEmptyBoard, List.length_replicate] at hi ⊢
    rw [List.getD_eq_getElem _ [] (by simpa using hi), List.getElem_replicate,
      List.length_replicate]
  · simp only [Engine.init]
    by_cases hsp : sp = Cell.white <;> simp [hsp]
  · intro mx hmx
    simp only [Engine.init] at hmx
    cases mh with
    | none => exact absurd hmx (by simp)
    | some m =>
      simp only [] at hmx
      by_cases hm : 0 < m
      · rw [if_pos hm] at hmx
        injection hmx with hmx2
        omega
      · rw [if_neg hm] at hmx
        exact absurd hmx (by simp)
  · intro m hm
    simp [Engine.init] at hm
  · simp [Engine.init]
  · simp only [Engine.init]
    exact altList_nil
  · intro pre m post hsplit
    simp only [Engine.init] at hsplit
    exact absurd hsplit.symm (List.append_ne_nil_of_right_ne_nil pre (by simp))
  · intro _ pre m hsplit
    simp only [Engine.init] at hsplit
    exact absurd hsplit.symm (List.append_ne_nil_of_right_ne_nil pre (by simp))
  · intro _ pre m hsplit
    simp only [Engine.init] at hsplit
    exact absurd hsplit.symm (List.append_ne_nil_of_right_ne_nil pre (by simp))
  · intro _
    exact ⟨rfl, rfl⟩
  · intro hgo
    simp only [Engine.init] at hgo
    exact Bool.noConfusion hgo
  · intro _ m rest hsplit
    simp only [Engine.init] at hsplit
    exact absurd hsplit.symm (by simp)

theorem playMoves_cons (e : Engine) (p : Int × Int) (ps : List (Int × Int)) :
    playMoves e (p :: ps) = playMoves (applyMove e p.1 p.2).1 ps := rfl

/-- Every engine produced by a driver loop from a fresh engine satisfies
    the invariant. -/
theorem engineInv_playMoves (ms : List (Int × Int)) :
    ∀ e : Engine, EngineInv e → EngineInv (playMoves e ms) := by
  induction ms with
  | nil => exact fun e h => h
  | cons p ps ih =>
    intro e h
    rw [playMoves_cons]
    exact ih _ (engineInv_applyMove e h p.1 p.2)

/-- Replaying a suffix of a reachable engine's history — in original order,
    starting from the engine whose board has that suffix's cells cleared
    and whose current player is the first replayed move's player —
    rebuilds the original board and current player. -/
theorem replayLoop (E : Engine) (hInv : EngineInv E) :
    ∀ (rest : List Move) (m : Move) (pre : List Move) (s : Engine),
      E.moveHistory = pre ++ m :: rest →
      s.boardSize = E.boardSize →
      s.maxHistory = E.maxHistory →
      s.board = clearCells E.board (m :: rest).reverse →
      s.gameOver = false →
      s.currentPlayer = m.player →
      (playMoves s ((m :: rest).map fun mm => (mm.row, mm.col))).board = E.board ∧
      (playMoves s ((m :: rest).map fun mm => (mm.row, mm.col))).currentPlayer =
        E.currentPlayer := by
  intro rest
  induction rest with
  | nil =>
    intro m pre s hsplit hbss hsm hboard hgos hcur
    have hm_mem : m ∈ E.moveHistory := by
      rw [hsplit]; exact List.mem_append.mpr (Or.inr (List.mem_singleton.mpr rfl))
    have hin_m : isInside E.boardSize m.row m.col = true := (hInv.hist_mem m hm_mem).1
    have hins : isInside s.boardSize m.row m.col = true := by rw [hbss]; exact hin_m
    have hbs' : s.board = setCell E.board m.row m.col Cell.empty := by
      rw [hboard, clearCells_reverse_cons]
      rfl
    have hocc_s : getCell s.board m.row m.col = Cell.empty := by
      rw [hbs']; exact getCell_setCell_empty _ _ _
    have hplace : setCell s.board m.row m.col s.currentPlayer = E.board := by
      rw [hbs', setCell_setCell, hcur]
      have hget : getCell E.board m.row m.col = m.player := (hInv.hist_mem m hm_mem).2.1
      rw [← hget]
      exact setCell_getCell E.board m.row m.col
    have hred : playMoves s (([m] : List Move).map fun mm => (mm.row, mm.col)) =
        (applyMove s m.row m.col).1 := rfl
    rw [hred]
    obtain ⟨hbs2, hsp2, hmh2, hb2, hterm2⟩ := applyMove_valid_main s m.row m.col hgos hins hocc_s
    cases hEgo : E.gameOver with
    | false =>
      have hlast := hInv.last_cont hEgo pre m hsplit
      have hcl := hInv.cur_link hEgo pre m hsplit
      rcases hterm2 with ⟨hg2, hc2, _, _⟩ | ⟨hg2, hc2, hnt⟩
      · refine ⟨by rw [hb2, hplace], ?_⟩
        rw [hc2, hcur]
        exact hcl.symm
      · exfalso
        apply hnt
        rw [hplace]
        exact hlast
    | true =>
      obtain ⟨pre2, m2, hsplit2, hcur2, hnterm2⟩ := hInv.term_last hEgo
      have heq : pre2 ++ [m2] = pre ++ [m] := by rw [← hsplit2, hsplit]
      obtain ⟨hpe, hme⟩ := List.append_inj' heq rfl
      injection hme with hme2
      subst hme2
      rcases hterm2 with ⟨hg2, hc2, hwd2, hdr2⟩ | ⟨hg2, hc2, hnt⟩
      · exfalso
        apply hnterm2
        rw [hplace] at hwd2 hdr2
        exact ⟨hwd2, hdr2⟩
      · refine ⟨by rw [hb2, hplace], ?_⟩
        rw [hc2, hcur]
        exact hcur2.symm
  | cons m2 rest2 ih =>
    intro m pre s hsplit hbss hsm hboard hgos hcur
    have hm_mem : m ∈ E.moveHistory := by
      rw [hsplit]
      exact List.mem_append.mpr (Or.inr (List.mem_cons_self m _))
    have hin_m : isInside E.boardSize m.row m.col = true := (hInv.hist_mem m hm_mem).1
    have hins : isInside s.boardSize m.row m.col = true := by rw [hbss]; exact hin_m
    have hbs' : s.board =
        setCell (clearCells E.board (m2 :: rest2).reverse) m.row m.col Cell.empty := by
      rw [hboard, clearCells_reverse_cons]
    have hocc_s : getCell s.board m.row m.col = Cell.empty := by
      rw [hbs']; exact getCell_setCell_empty _ _ _
    have hnodup_sub : ∀ mm ∈ (m2 :: rest2), (m.row, m.col) ≠ (mm.row, mm.col) := by
      intro mm hmm heq
      have hnd := hInv.nodup
      rw [hsplit, List.map_append] at hnd
      have hnd2 := (List.nodup_append.mp hnd).2.1
      rw [List.map_cons] at hnd2
      have hnotin := (List.nodup_cons.mp hnd2).1
      apply hnotin
      rw [heq]
      exact List.mem_map_of_mem _ hmm
    have hne_rest : ∀ mm ∈ (m2 :: rest2).reverse, m.row ≠ mm.row ∨ m.col ≠ mm.col := by
      intro mm hmm
      have h := hnodup_sub mm (List.mem_reverse.mp hmm)
      by_contra hc
      push_neg at hc
      exact h (by rw [hc.1, hc.2])
    have hplace : setCell s.board m.row m.col s.currentPlayer =
        clearCells E.board (m2 :: rest2).reverse := by
      rw [hbs', setCell_setCell, hcur]
      have hget : getCell (clearCells E.board (m2 :: rest2).reverse) m.row m.col =
          m.player := by
        rw [getCell_clearCells_ne _ _ _ _ hne_rest]
        exact (hInv.hist_mem m hm_mem).2.1
      rw [← hget]
      exact setCell_getCell _ m.row m.col
    have hmid := hInv.mid_ok pre m (m2 :: rest2) hsplit (by simp)
    obtain ⟨hbs2, hsp2, hmh2, hb2, hterm2⟩ := applyMove_valid_main s m.row m.col hgos hins hocc_s
    rcases hterm2 with ⟨hg2, hc2, _, _⟩ | ⟨hg2, hc2, hnt⟩
    · have hred : playMoves s ((m :: m2 :: rest2).map fun mm => (mm.row, mm.col)) =
          playMoves (applyMove s m.row m.col).1
            ((m2 :: rest2).map fun mm => (mm.row, mm.col)) := rfl
      rw [hred]
      refine ih m2 (pre ++ [m]) (applyMove s m.row m.col).1 ?_ ?_ ?_ ?_ hg2 ?_
      · rw [hsplit, List.append_assoc]
        rfl
      · rw [hbs2, hbss]
      · rw [hmh2, hsm]
      · rw [hb2, hplace]
      · rw [hc2, hcur]
        exact (altList_adjacent pre E.moveHistory m m2 rest2 hInv.alt hsplit).symm
    · exfalso
      apply hnt
      rw [hplace]
      exact hmid

/-- Closed form of `undoLastMove` for a positive count within the history
    length: pop the last `k` entries (returned most-recent first), clear
    their cells, and recompute last-move/current-player from the remaining
    history. -/
theorem undoLastMove_eq_of_le (e : Engine) (k : Nat) (hk1 : ¬k = 0)
    (hk : k ≤ e.moveHistory.length) :
    undoLastMove e (k : Int) =
      ({ e with
          board := clearCells e.board
            (e.moveHistory.drop (e.moveHistory.length - k)).reverse
          moveHistory := e.moveHistory.take (e.moveHistory.length - k)
          lastMove := (e.moveHistory.take (e.moveHistory.length - k)).getLast?
          currentPlayer :=
            match (e.moveHistory.take (e.moveHistory.length - k)).getLast? with
            | some m => getOpponent m.player
            | none => e.startingPlayer
          gameOver := false
          winningSequence := [] },
        (e.moveHistory.drop (e.moveHistory.length - k)).reverse) := by
  have hlen : (e.moveHistory.drop (e.moveHistory.length - k)).length = k := by
    rw [List.length_drop]; omega
  have hne' : (e.moveHistory.drop (e.moveHistory.length - k)).reverse ≠ [] := by
    simp only [ne_eq, List.reverse_eq_nil_iff]
    intro hnil
    rw [hnil] at hlen
    simp at hlen
    omega
  have hne : (e.moveHistory.drop (e.moveHistory.length - k)).reverse.isEmpty = false := by
    cases hcase : (e.moveHistory.drop (e.moveHistory.length - k)).reverse with
    | nil => exact absurd hcase hne'
    | cons a t => rfl
  have hmax : (max 0 (k : Int)).toNat = k := by omega
  simp only [undoLastMove]
  rw [hmax, if_neg hk1, undoLoop_eq, Nat.min_eq_left hk]
  simp only []
  rw [hne]
  simp only [Bool.false_eq_true, if_false]
  rfl

/-- **C6 (corrected).** For every engine reached by a driver loop from a
    fresh engine and every `k` within the stored history, undoing `k`
    moves and replaying the removed moves in their original order restores
    both the board and the current player, provided `k` is strictly below
    the stored history length or the stored history's first entry records
    the starting player's color — as always holds when the history is
    unbounded (kept as its own disjunct for convenience), when nothing has
    been evicted yet, and more generally when an even number of moves has
    been evicted.  Only in the remaining case — `k` equals the stored
    length after an odd number of evictions — does the undo reset the
    current player to the starting player instead of the evicted
    predecessor's opponent, recoloring the replayed stones. -/
theorem undo_replay_roundtrip (size : Nat) (sp : Cell) (mh : Option Int)
    (ms : List (Int × Int)) (k : Nat) (e : Engine)
    (he : e = playMoves (Engine.init size sp mh) ms)
    (hk : k ≤ e.moveHistory.length)
    (hfull : e.maxHistory = none ∨ k < e.moveHistory.length ∨
      (e.moveHistory.head?.map (fun m => m.player)).getD e.startingPlayer =
        e.startingPlayer) :
    (playMoves (undoLastMove e (k : Int)).1
        (((undoLastMove e (k : Int)).2.reverse).map fun m => (m.row, m.col))).board =
      e.board ∧
    (playMoves (undoLastMove e (k : Int)).1
        (((undoLastMove e (k : Int)).2.reverse).map fun m => (m.row, m.col))).currentPlayer =
      e.currentPlayer := by
  have hInv : EngineInv e := he ▸ engineInv_playMoves ms _ (engineInv_init size sp mh)
  by_cases hk0 : k = 0
  · subst hk0
    have hz : undoLastMove e ((0 : Nat) : Int) = (e, []) := rfl
    rw [hz]
    exact ⟨rfl, rfl⟩
  · have hundo := undoLastMove_eq_of_le e k hk0 hk
    have hu1 : (undoLastMove e (k : Int)).1 =
        { e with
            board := clearCells e.board
              (e.moveHistory.drop (e.moveHistory.length - k)).reverse
            moveHistory := e.moveHistory.take (e.moveHistory.length - k)
            lastMove := (e.moveHistory.take (e.moveHistory.length - k)).getLast?
            currentPlayer :=
              match (e.moveHistory.take (e.moveHistory.length - k)).getLast? with
              | some m => getOpponent m.player
              | none => e.startingPlayer
            gameOver := false
            winningSequence := [] } := by
      rw [hundo]
    have hu2 : (undoLastMove e (k : Int)).2 =
        (e.moveHistory.drop (e.moveHistory.length - k)).reverse := by
      rw [hundo]
    rw [hu1, hu2, List.reverse_reverse]
    have hlen : (e.moveHistory.drop (e.moveHistory.length - k)).length = k := by
      rw [List.length_drop]; omega
    obtain ⟨m1, rest, hsuf⟩ :
        ∃ m1 rest, e.moveHistory.drop (e.moveHistory.length - k) = m1 :: rest := by
      cases hcase : e.moveHistory.drop (e.moveHistory.length - k) with
      | nil =>
        rw [hcase] at hlen
        simp at hlen
        omega
      | cons a t => exact ⟨a, t, rfl⟩
    rw [hsuf]
    have hsplit : e.moveHistory =
        e.moveHistory.take (e.moveHistory.length - k) ++ m1 :: rest := by
      rw [← hsuf]
      exact (List.take_append_drop _ e.moveHistory).symm
    have hcur : (match (e.moveHistory.take (e.moveHistory.length - k)).getLast? with
        | some m => getOpponent m.player
        | none => e.startingPlayer) = m1.player := by
      cases hcase : (e.moveHistory.take (e.moveHistory.length - k)).getLast? with
      | none =>
        have htake : e.moveHistory.take (e.moveHistory.length - k) = [] := by
          cases htk : e.moveHistory.take (e.moveHistory.length - k) with
          | nil => rfl
          | cons a t =>
            rw [htk] at hcase
            exact absurd hcase (by simp)
        have hfullhist : e.moveHistory = m1 :: rest := by
          rw [htake] at hsplit
          exact hsplit
        rcases hfull with hmn | hlt | hhead
        · have hm1 := hInv.head_sp hmn m1 rest hfullhist
          simp only []
          exact hm1.symm
        · exfalso
          have hlt0 : (e.moveHistory.take (e.moveHistory.length - k)).length = 0 := by
            rw [htake]; rfl
          rw [List.length_take] at hlt0
          omega
        · rw [hfullhist] at hhead
          simp at hhead
          simp only []
          exact hhead.symm
      | some mlast =>
        obtain ⟨q, hq⟩ : ∃ q,
            e.moveHistory.take (e.moveHistory.length - k) = q ++ [mlast] := by
          rcases (e.moveHistory.take (e.moveHistory.length - k)).eq_nil_or_concat with
            hnil | ⟨q, a, hqa⟩
          · rw [hnil] at hcase
            exact absurd hcase (by simp)
          · rw [List.concat_eq_append] at hqa
            rw [hqa, List.getLast?_concat] at hcase
            injection hcase with ha
            exact ⟨q, by rw [hqa, ha]⟩
        have hsplit2 : e.moveHistory = q ++ mlast :: m1 :: rest := by
          conv_lhs => rw [hsplit]
          rw [hq, List.append_assoc]
          rfl
        have hadj := altList_adjacent q e.moveHistory mlast m1 rest hInv.alt hsplit2
        simp only []
        exact hadj.symm
    refine replayLoop e hInv rest m1 (e.moveHistory.take (e.moveHistory.length - k))
      _ hsplit rfl rfl ?_ rfl hcur
    rfl

/-- The engine of the C6 counterexample: three stones played with the
    history capped at 2, so the first move has been evicted from the
    stored history. -/
def c6Engine : Engine :=
  playMoves (Engine.init 15 Cell.black (some 2)) [(0, 0), (0, 1), (0, 2)]

/-- Counterexample to C6 as stated: on an engine whose bounded history has
    already evicted a move, undoing the whole stored history (k = 2, not
    exceeding the history length) and replaying the removed moves in their
    original order restores neither the board nor the current player —
    the replay restarts from the starting player, recoloring the stones. -/
theorem undo_replay_counterexample :
    c6Engine.moveHistory.length = 2 ∧
    (playMoves (undoLastMove c6Engine 2).1
        (((undoLastMove c6Engine 2).2.reverse).map fun m => (m.row, m.col))).board ≠
      c6Engine.board ∧
    (playMoves (undoLastMove c6Engine 2).1
        (((undoLastMove c6Engine 2).2.reverse).map fun m => (m.row, m.col))).currentPlayer ≠
      c6Engine.currentPlayer := by
  refine ⟨by decide, by decide, by decide⟩

/-- The engine of the C6 witness: two moves on a history bounded at 5, so
    nothing has been evicted and the stored head records the starting
    player. -/
def c6wEngine : Engine :=
  playMoves (Engine.init 15 Cell.black (some 5)) [(0, 0), (0, 1)]

/-- Witness for the corrected C6 at concrete inputs: on a bounded history
    with no eviction, undoing the whole stored history (k = 2 = stored
    length) and replaying it restores the board and the current player —
    the hypothesis is discharged through the stored-head disjunct. -/
theorem undo_replay_roundtrip_witness :
    (playMoves (undoLastMove c6wEngine ((2 : Nat) : Int)).1
        (((undoLastMove c6wEngine ((2 : Nat) : Int)).2.reverse).map
          fun m => (m.row, m.col))).board = c6wEngine.board ∧
    (playMoves (undoLastMove c6wEngine ((2 : Nat) : Int)).1
        (((undoLastMove c6wEngine ((2 : Nat) : Int)).2.reverse).map
          fun m => (m.row, m.col))).currentPlayer = c6wEngine.currentPlayer :=
  undo_replay_roundtrip 15 Cell.black (some 5) [(0, 0), (0, 1)] 2 c6wEngine rfl
    (by decide) (Or.inr (Or.inr (by decide)))
end Gomoku
